import Mathlib

/-!
Verification of the column-mapping / validation / cleaning / CSV engine of the
csv-parser-poc repository.  The executable definitions below are shallow
embeddings of the TypeScript sources:

  * `src/frontend/src/utils/csv-parser.ts`   (`parseCSV`, `parseCSVLine`)
  * `src/frontend/src/services/demo-api.ts`  (`suggestMappings`, `validateData`,
    `cleanData`, `exportData`, plus the module-level `currentFileData` state)
  * `src/unnamed/part_003` (`JsonDataViewer.downloadCsv`)
  * `src/frontend/src/components/DataPreview.tsx` (`exportMutation` format switch)

JavaScript strings are modelled as `List Char` (`Str`); the ASCII fragment of
`toLowerCase`/`toUpperCase` is modelled explicitly; `\s` is modelled by the
JavaScript whitespace character set.  JavaScript objects (rows, mapping sets)
are modelled as insertion-ordered association lists with JS-object update
semantics (`objInsert`).
-/

set_option maxHeartbeats 1000000

namespace CsvPoc

/-- JavaScript strings, modelled as lists of characters. -/
abbrev Str := List Char

/-- Conversion from Lean string literals into the model. -/
def str (s : String) : Str := s.toList

/-- The JavaScript `\\s` (and `String.prototype.trim`) whitespace characters. -/
def jsSpaceChars : List Char :=
  ['\t', '\n', '\x0b', '\x0c', '\r', ' ', '\u00a0', '\u1680',
   '\u2000', '\u2001', '\u2002', '\u2003', '\u2004', '\u2005', '\u2006',
   '\u2007', '\u2008', '\u2009', '\u200a', '\u2028', '\u2029', '\u202f',
   '\u205f', '\u3000', '\ufeff']

/-- Membership in the JavaScript whitespace class `\\s`. -/
def jsSpace (c : Char) : Bool := jsSpaceChars.contains c

/-- Remove leading JS whitespace. -/
def trimStart (s : Str) : Str := s.dropWhile jsSpace

/-- Remove trailing JS whitespace. -/
def trimEnd (s : Str) : Str := (s.reverse.dropWhile jsSpace).reverse

/-- JavaScript `String.prototype.trim`. -/
def jsTrim (s : Str) : Str := trimEnd (trimStart s)

/-- ASCII fragment of JavaScript `toLowerCase` on one character
(as in core `Char.toLower`). -/
def jsToLower (c : Char) : Char :=
  if 65 ≤ c.toNat ∧ c.toNat ≤ 90 then Char.ofNat (c.toNat + 32) else c

/-- ASCII fragment of JavaScript `toUpperCase` on one character
(as in core `Char.toUpper`). -/
def jsToUpper (c : Char) : Char :=
  if 97 ≤ c.toNat ∧ c.toNat ≤ 122 then Char.ofNat (c.toNat - 32) else c

/-- `s.toLowerCase()` (ASCII fragment). -/
def toLowerStr (s : Str) : Str := s.map jsToLower

/-- JavaScript `String.prototype.replace` with a plain-string pattern:
replaces only the first occurrence; an empty pattern matches at position 0. -/
def replaceFirst (pat repl : Str) : Str → Str
  | [] => if pat = [] then repl else []
  | c :: cs =>
    if pat.isPrefixOf (c :: cs) then repl ++ (c :: cs).drop pat.length
    else c :: replaceFirst pat repl cs

/-- JavaScript `String.prototype.includes` for the model. -/
def containsStr : (haystack needle : Str) → Bool
  | h, n =>
    n.isPrefixOf h ||
      match h with
      | [] => false
      | _ :: t => containsStr t n

/-- `String.prototype.split(sep)` for a one-character separator. -/
def splitOnChar (sep : Char) : Str → List Str
  | [] => [[]]
  | c :: cs =>
    if c = sep then [] :: splitOnChar sep cs
    else
      match splitOnChar sep cs with
      | [] => [[c]]
      | l :: ls => (c :: l) :: ls

/-- `text.split(/\r?\n/)`: a separator is `\r\n` or a bare `\n`
(a bare `\r` is not a separator). -/
def splitLines : Str → List Str
  | [] => [[]]
  | '\r' :: '\n' :: cs => [] :: splitLines cs
  | '\n' :: cs => [] :: splitLines cs
  | c :: cs =>
    match splitLines cs with
    | [] => [[c]]
    | l :: ls => (c :: l) :: ls

/-- JavaScript `Array.prototype.join(sep)`. -/
def joinSep (sep : Str) : List Str → Str
  | [] => []
  | [x] => x
  | x :: y :: ys => x ++ sep ++ joinSep sep (y :: ys)

/-- Rows and mapping sets are JavaScript objects: insertion-ordered
association lists with unique keys maintained by `objInsert`. -/
abbrev Obj (β : Type) := List (Str × β)

/-- JS-object property write: update in place if the key exists
(keeping its position), otherwise append. -/
def objInsert (r : Obj β) (k : Str) (v : β) : Obj β :=
  if k ∈ r.map Prod.fst then
    r.map (fun p => if p.1 = k then (k, v) else p)
  else r ++ [(k, v)]

/-- JS-object property read, with a default for a missing key
(models `row[k] || ''` / `row[k] ?? ''`). -/
def objGetD (r : Obj β) (k : Str) (d : β) : β :=
  match r.find? (fun p => p.1 = k) with
  | some p => p.2
  | none => d

/-- A parsed table row: column name to string value, in insertion order. -/
abbrev Row := Obj Str

/-! ## `src/frontend/src/utils/csv-parser.ts` -/

/-- The character loop of `parseCSVLine`: `cur` is the field accumulated so
far, the `Bool` is the `inQuotes` flag.  Mirrors the source: a doubled quote
inside quotes is an escaped quote, any other quote toggles the flag, a comma
outside quotes ends the field, every completed field is trimmed. -/
def parseCSVLineAux (inQuotes : Bool) (cur : Str) : Str → List Str
  | [] => [jsTrim cur]
  | c :: rest =>
    if c = '"' then
      match inQuotes, rest with
      | true, '"' :: rest2 => parseCSVLineAux true (cur ++ ['"']) rest2
      | iq, r => parseCSVLineAux (!iq) cur r
    else if c = ',' then
      if inQuotes then parseCSVLineAux true (cur ++ [',']) rest
      else jsTrim cur :: parseCSVLineAux false [] rest
    else parseCSVLineAux inQuotes (cur ++ [c]) rest

/-- `parseCSVLine` from `csv-parser.ts`. -/
def parseCSVLine (line : Str) : List Str := parseCSVLineAux false [] line

/-- `headers.forEach((header, index) => row[header] = values[index])`. -/
def buildRow (headers values : List Str) : Row :=
  (headers.zip values).foldl (fun r p => objInsert r p.1 p.2) []

/-- Result shape of `parseCSV` (the `sheets` fields of the other variants are
not part of the verified engine). -/
structure ParsedCSV where
  headers : List Str
  data : List Row
  totalRows : Nat
  deriving Repr, DecidableEq

/-- `parseCSV` from `csv-parser.ts`: trim the text, split it into lines,
parse the first line as headers, keep exactly the data lines whose field
count matches the header count. -/
def parseCSV (text : Str) : ParsedCSV :=
  let lines := splitLines (jsTrim text)
  let headers := parseCSVLine (lines.headD [])
  let data := lines.tail.filterMap (fun l =>
    let values := parseCSVLine l
    if values.length = headers.length then some (buildRow headers values) else none)
  { headers := headers, data := data, totalRows := data.length }

/-! ## `downloadCsv` from `src/unnamed/part_003` (JsonDataViewer) -/

/-- The CSV value escaping of `downloadCsv`: a value containing a comma or a
double quote is wrapped in double quotes with internal quotes doubled. -/
def escapeCsvValue (v : Str) : Str :=
  if ',' ∈ v ∨ '"' ∈ v then
    '"' :: (v.flatMap (fun c => if c = '"' then ['"', '"'] else [c])) ++ ['"']
  else v

/-- The CSV text produced by `downloadCsv`: the comma-joined header list,
then one comma-joined line of (escaped) values per row, joined with `\n`. -/
def encodeCsv (headers : List Str) (rows : List Row) : Str :=
  joinSep ['\n']
    ((joinSep [','] headers) ::
      rows.map (fun r =>
        joinSep [','] (headers.map (fun h => escapeCsvValue (objGetD r h [])))))

/-! ## `suggestMappings` from `src/frontend/src/services/demo-api.ts` -/

/-- One entry of the mapping set produced by `suggestMappings`.  The source's
floating-point confidences 1.0 / 0.9 / 0.8 are represented exactly as
rationals. -/
structure Mapping where
  source_column : Str
  target_field : Str
  confidence : ℚ
  reasoning : Str
  deriving Repr, DecidableEq

/-- `header.toLowerCase().replace(/[^a-z0-9]/g, '')`. -/
def normalizeHeader (h : Str) : Str :=
  (toLowerStr h).filter (fun c => ('a' ≤ c ∧ c ≤ 'z') ∨ ('0' ≤ c ∧ c ≤ '9'))

/-- `field.toLowerCase().replace(/_/g, '')`. -/
def normalizeField (f : Str) : Str :=
  (toLowerStr f).filter (fun c => c ≠ '_')

/-- The fixed special-case keyword table of `suggestMappings`, checked against
the normalized header and the raw target field name. -/
def keywordMatch (nh f : Str) : Bool :=
  (containsStr nh (str "mail") && f == str "email") ||
  (containsStr nh (str "phone") && f == str "phone") ||
  (containsStr nh (str "mobile") && f == str "phone") ||
  (containsStr nh (str "first") && f == str "first_name") ||
  (containsStr nh (str "last") && f == str "last_name") ||
  (containsStr nh (str "street") && f == str "address") ||
  (containsStr nh (str "addr") && f == str "address") ||
  (containsStr nh (str "zip") && f == str "zip_code") ||
  (containsStr nh (str "postal") && f == str "zip_code")

/-- The inner `targetFields.forEach` of `suggestMappings`, folding the
`(bestMatch, bestScore)` pair over the schema fields in declaration order.
An exact normalized match sets score 1.0 unconditionally; a substring match
sets score 0.8 only when it beats the current best; a keyword match sets
score 0.9 unconditionally (the source has no guard on that branch). -/
def bestTarget (nh : Str) (targetFields : List Str) : Option Str × ℚ :=
  targetFields.foldl
    (fun best f =>
      let nf := normalizeField f
      if nh = nf then (some f, 1)
      else if containsStr nh nf || containsStr nf nh then
        if mkRat 8 10 > best.2 then (some f, mkRat 8 10) else best
      else if keywordMatch nh f then (some f, mkRat 9 10)
      else best)
    (none, 0)

/-- The reasoning string attached to a mapping, keyed to the best score. -/
def mkReasoning (score : ℚ) : Str :=
  if score = 1 then str "Exact match found"
  else if score ≥ mkRat 9 10 then str "High confidence match based on field name"
  else str "Partial match with good confidence"

/-- The pure mapping computation of `suggestMappings` (the `sampleData`
argument is accepted and ignored, as in the source).  The result is the
`mappings` object, keyed by source header.  The guard `f ≠ []` models the
JS truthiness test `if (bestMatch)`, under which an empty-string field name
is falsy. -/
def suggestMappings (headers : List Str) (sampleData : List Row)
    (targetSchema : Obj Str) : Obj Mapping :=
  let _ := sampleData
  let targetFields := targetSchema.map Prod.fst
  headers.foldl
    (fun acc h =>
      let nh := normalizeHeader h
      match bestTarget nh targetFields with
      | (some f, score) =>
        if f ≠ [] then
          objInsert acc h
            { source_column := h, target_field := f, confidence := score,
              reasoning := mkReasoning score }
        else acc
      | (none, _) => acc)
    []

/-! ## `validateData` from `src/frontend/src/services/demo-api.ts` -/

/-- One validation issue as pushed by `validateData` (the nested `rule`
object is flattened into `rule_type` and `severity`). -/
structure Issue where
  row_index : Nat
  column : Str
  value : Str
  rule_type : Str
  severity : Str
  message : Str
  deriving Repr, DecidableEq

/-- The email regex `/^[^\s@]+@[^\s@]+\.[^\s@]+$/`: the string is `A@B` with
`A`, `B` nonempty and free of whitespace and `@`, and `B` contains a dot
with at least one character on each side. -/
def emailRegexTest (s : Str) : Bool :=
  match splitOnChar '@' s with
  | [a, b] =>
    !a.isEmpty && !b.isEmpty &&
    !(a.any jsSpace) && !(b.any jsSpace) &&
    (List.range b.length).any (fun i =>
      b.getD i ' ' == '.' && decide (0 < i) && decide (i + 1 < b.length))
  | _ => false

/-- The phone regex `/^[\d\s\-\+\(\)]+$/` applied to a nonempty value:
only digits, JS whitespace, hyphens, plus and parentheses. -/
def phoneCharsOk (s : Str) : Bool :=
  !s.isEmpty && s.all (fun c => c.isDigit || jsSpace c || c == '-' || c == '+' || c == '(' || c == ')')

/-- `strValue.replace(/\D/g, '').length`: the number of digit characters. -/
def digitCount (s : Str) : Nat := (s.filter Char.isDigit).length

/-- The ZIP regex `/^\d{5}(-\d{4})?$/`. -/
def zipRegexTest (s : Str) : Bool :=
  (s.length = 5 && s.all Char.isDigit) ||
  (s.length = 10 && (s.take 5).all Char.isDigit && s.getD 5 ' ' == '-' &&
    (s.drop 6).all Char.isDigit)

/-- Case-insensitive column-name test `column.toLowerCase().includes(w)`. -/
def colHas (column : Str) (w : String) : Bool :=
  containsStr (toLowerStr column) (str w)

/-- The errors pushed for one cell, in push order: the email-format error,
then the phone-format error.  `v` is the raw cell value; every check runs
on `strValue = String(value || '').trim()`. -/
def cellErrors (i : Nat) (column v : Str) : List Issue :=
  let strValue := jsTrim v
  (if colHas column "email" && !strValue.isEmpty && !emailRegexTest strValue then
    [{ row_index := i, column := column, value := strValue,
       rule_type := str "format", severity := str "error",
       message := str "Invalid email format" }]
   else []) ++
  (if (colHas column "phone" || colHas column "mobile") &&
      !strValue.isEmpty && !phoneCharsOk strValue then
    [{ row_index := i, column := column, value := strValue,
       rule_type := str "format", severity := str "error",
       message := str "Invalid phone number format" }]
   else [])

/-- The warnings pushed for one cell, in push order: the incomplete-phone
warning, the required-field warning, the ZIP-format warning. -/
def cellWarnings (i : Nat) (column v : Str) : List Issue :=
  let strValue := jsTrim v
  (if (colHas column "phone" || colHas column "mobile") &&
      !(!strValue.isEmpty && !phoneCharsOk strValue) &&
      (!strValue.isEmpty && decide (digitCount strValue < 10)) then
    [{ row_index := i, column := column, value := strValue,
       rule_type := str "format", severity := str "warning",
       message := str "Phone number seems incomplete" }]
   else []) ++
  (if strValue.isEmpty && (colHas column "name" || colHas column "email") then
    [{ row_index := i, column := column, value := strValue,
       rule_type := str "required", severity := str "warning",
       message := str "Required field is empty" }]
   else []) ++
  (if (colHas column "zip" || colHas column "postal") &&
      !strValue.isEmpty && !zipRegexTest strValue then
    [{ row_index := i, column := column, value := strValue,
       rule_type := str "format", severity := str "warning",
       message := str "Invalid ZIP code format" }]
   else [])

/-- Index-carrying enumeration of a list (used to model
`dataToValidate.forEach((row, rowIndex) => ...)`). -/
def enumIdx (n : Nat) : List α → List (Nat × α)
  | [] => []
  | a :: l => (n, a) :: enumIdx (n + 1) l

/-- All errors pushed by the validation loop, in push order. -/
def validateErrors (rows : List Row) : List Issue :=
  (enumIdx 0 rows).flatMap (fun p => p.2.flatMap (fun cell => cellErrors p.1 cell.1 cell.2))

/-- All warnings pushed by the validation loop, in push order. -/
def validateWarnings (rows : List Row) : List Issue :=
  (enumIdx 0 rows).flatMap (fun p => p.2.flatMap (fun cell => cellWarnings p.1 cell.1 cell.2))

/-- First-occurrence deduplication: `Array.from` of a JS `Set` built by
inserting elements in order. -/
def dedupFirst (l : List Str) : List Str :=
  l.foldl (fun acc c => if c ∈ acc then acc else acc ++ [c]) []

/-- The summary object of a validation result. -/
structure ValidationSummary where
  total_rows : Nat
  total_columns : Nat
  errors_count : Nat
  warnings_count : Nat
  error_columns : List Str
  warning_columns : List Str
  deriving Repr, DecidableEq

/-- The result of `validateData`. -/
structure ValidationResult where
  job_id : Str
  valid : Bool
  errors : List Issue
  warnings : List Issue
  summary : ValidationSummary
  deriving Repr, DecidableEq

/-- The validation of a fixed row set (the body of `validateData` after the
`dataToValidate` fallback has been resolved). -/
def validateRows (jobId : Str) (rows : List Row) : ValidationResult :=
  let errors := validateErrors rows
  let warnings := validateWarnings rows
  { job_id := jobId
    valid := errors.isEmpty
    errors := errors
    warnings := warnings
    summary :=
      { total_rows := rows.length
        total_columns := (rows.headD []).length
        errors_count := errors.length
        warnings_count := warnings.length
        error_columns := dedupFirst (errors.map Issue.column)
        warning_columns := dedupFirst (warnings.map Issue.column) } }

/-! ## `cleanData` from `src/frontend/src/services/demo-api.ts` -/

/-- The fixed ordered list of literal email domain-typo substitutions. -/
def emailFixes : List (Str × Str) :=
  [(str "@gmial.com", str "@gmail.com"),
   (str "@gmai.com", str "@gmail.com"),
   (str "@gmal.com", str "@gmail.com"),
   (str "@yaho.com", str "@yahoo.com"),
   (str "@yahooo.com", str "@yahoo.com"),
   (str "@hotmial.com", str "@hotmail.com"),
   (str "@hotmai.com", str "@hotmail.com"),
   (str "@outloo.com", str "@outlook.com"),
   (str "@outlok.com", str "@outlook.com")]

/-- The chained `.replace(...)` calls of the email branch (each replaces only
the first occurrence of its pattern). -/
def applyEmailFixes (s : Str) : Str :=
  emailFixes.foldl (fun acc p => replaceFirst p.1 p.2 acc) s

/-- The email branch of `cleanData` on the trimmed value:
lowercase, then the typo substitutions. -/
def cleanEmailValue (t : Str) : Str := applyEmailFixes (toLowerStr t)

/-- The phone branch of `cleanData` on the trimmed value: if exactly 10
digits remain after stripping non-digits, reformat as `+1-XXX-XXX-XXXX`,
otherwise keep the trimmed value. -/
def cleanPhoneValue (t : Str) : Str :=
  let digits := t.filter Char.isDigit
  if digits.length = 10 then
    str "+1-" ++ digits.take 3 ++ ['-'] ++ ((digits.drop 3).take 3) ++ ['-'] ++ digits.drop 6
  else t

/-- The word-wise title-case used for names, locations and companies:
`split(' ')`, uppercase the first character and lowercase the rest of each
word, `join(' ')`. -/
def capWord : Str → Str
  | [] => []
  | c :: cs => jsToUpper c :: cs.map jsToLower

/-- The word-wise title-case body: uppercase the first character of a word
and lowercase the rest. -/
def properCase (t : Str) : Str :=
  joinSep [' '] ((splitOnChar ' ' t).map capWord)

/-- The cleaned value for one mapping applied to one trimmed value: the
branch chain of `cleanData` keyed on `mapping.target_field`. -/
def cleanValueForField (targetField t : Str) : Str :=
  if targetField = str "email" then cleanEmailValue t
  else if targetField = str "phone" then cleanPhoneValue t
  else if targetField = str "first_name" ∨ targetField = str "last_name" then properCase t
  else if targetField = str "city" ∨ targetField = str "state" then properCase t
  else if targetField = str "company" then properCase t
  else t

/-- The per-category change counters of `cleanData`. -/
structure ChangeCounts where
  email : Nat := 0
  phone : Nat := 0
  names : Nat := 0
  locations : Nat := 0
  companies : Nat := 0
  deriving Repr, DecidableEq

/-- The change events recorded for one (raw value, mapping) pair: the email,
names, locations and companies branches compare the cleaned value against the
raw value; the phone branch counts only when 10 digits were reformatted. -/
def cleanChangeEvents (targetField rawValue t : Str) : ChangeCounts :=
  let cv := cleanValueForField targetField t
  if targetField = str "email" then
    if cv ≠ rawValue then { email := 1 } else {}
  else if targetField = str "phone" then
    if (t.filter Char.isDigit).length = 10 ∧ cv ≠ rawValue then { phone := 1 } else {}
  else if targetField = str "first_name" ∨ targetField = str "last_name" then
    if cv ≠ rawValue then { names := 1 } else {}
  else if targetField = str "city" ∨ targetField = str "state" then
    if cv ≠ rawValue then { locations := 1 } else {}
  else if targetField = str "company" then
    if cv ≠ rawValue then { companies := 1 } else {}
  else {}

/-- Pointwise sum of change counters. -/
def addCounts (a b : ChangeCounts) : ChangeCounts :=
  { email := a.email + b.email, phone := a.phone + b.phone,
    names := a.names + b.names, locations := a.locations + b.locations,
    companies := a.companies + b.companies }

/-- Total of all change events (`totalChanges` increments exactly when one
of the per-category counters does). -/
def totalOf (c : ChangeCounts) : Nat :=
  c.email + c.phone + c.names + c.locations + c.companies

/-- One cleaned output row: for each mapping (in mapping-set order) read
`row[sourceColumn] || ''`, trim it, clean it by target field, and write it
keyed by `target_field`. -/
def cleanRow (mappings : Obj Mapping) (row : Row) : Row :=
  mappings.foldl
    (fun cleanedRow p =>
      let value := objGetD row p.1 []
      objInsert cleanedRow p.2.target_field
        (cleanValueForField p.2.target_field (jsTrim value)))
    []

/-- The change counters contributed by one row. -/
def cleanRowCounts (mappings : Obj Mapping) (row : Row) : ChangeCounts :=
  mappings.foldl
    (fun counts p =>
      let value := objGetD row p.1 []
      addCounts counts (cleanChangeEvents p.2.target_field value (jsTrim value)))
    {}

/-- The result of `cleanData`. -/
structure CleanResult where
  data : List Row
  changes : ChangeCounts
  total_changes : Nat
  deriving Repr, DecidableEq

/-- The cleaning of a fixed row set under a fixed mapping set (the body of
`cleanData` after the `dataToClean` / `mappingsToUse` fallbacks have been
resolved). -/
def cleanRows (rows : List Row) (mappings : Obj Mapping) : CleanResult :=
  let counts := rows.foldl (fun acc r => addCounts acc (cleanRowCounts mappings r)) {}
  { data := rows.map (cleanRow mappings)
    changes := counts
    total_changes := totalOf counts }

/-! ## Export: `demoApi.exportData` and the `exportMutation` format switch of
`src/frontend/src/components/DataPreview.tsx` -/

/-- JSON string-literal escaping for `JSON.stringify`. -/
def jsonEscapeChar (c : Char) : Str :=
  if c = '"' then str "\\\""
  else if c = '\\' then str "\\\\"
  else if c = '\n' then str "\\n"
  else if c = '\r' then str "\\r"
  else if c = '\t' then str "\\t"
  else if c = '\x08' then str "\\b"
  else if c = '\x0c' then str "\\f"
  else if c.toNat < 32 then
    str "\\u00" ++ [Nat.digitChar (c.toNat / 16), Nat.digitChar (c.toNat % 16)]
  else [c]

/-- A JSON string literal. -/
def jsonString (s : Str) : Str := '"' :: s.flatMap jsonEscapeChar ++ ['"']

/-- `JSON.stringify(data, null, 2)` for an array of flat string objects. -/
def jsonStringifyRows (rows : List Row) : Str :=
  match rows with
  | [] => str "[]"
  | _ =>
    str "[\n" ++
    joinSep (str ",\n")
      (rows.map (fun r =>
        match r with
        | [] => str "  \x7b\x7d"
        | _ =>
          str "  \x7b\n" ++
          joinSep (str ",\n")
            (r.map (fun p => str "    " ++ jsonString p.1 ++ str ": " ++ jsonString p.2)) ++
          str "\n  \x7d")) ++
    str "\n]"

/-- Equality of `Except` results is decidable when both components are. -/
instance {ε α : Type} [DecidableEq ε] [DecidableEq α] : DecidableEq (Except ε α) := fun x y =>
  match x, y with
  | .ok a, .ok b =>
    if h : a = b then .isTrue (congrArg Except.ok h)
    else .isFalse (fun he => h (Except.ok.inj he))
  | .error a, .error b =>
    if h : a = b then .isTrue (congrArg Except.error h)
    else .isFalse (fun he => h (Except.error.inj he))
  | .ok _, .error _ => .isFalse (fun he => Except.noConfusion he)
  | .error _, .ok _ => .isFalse (fun he => Except.noConfusion he)

/-- A generated download: content, MIME type and file name. -/
structure ExportBlob where
  content : Str
  mime : Str
  filename : Str
  deriving Repr, DecidableEq

/-- The `switch (format)` of `exportMutation` in `DataPreview.tsx`: `json`
and `csv` build their encodings (the csv branch joins raw keys and values
with no escaping, and throws a `TypeError` on an empty data set because it
reads `Object.keys(data[0])`), and **every other format string** falls to the
`default` branch, which emits a plain-text placeholder blob named
`export.xlsx` — no unsupported-format error exists. -/
def exportBlobSwitch (format : Str) (data : List Row) : Except Str ExportBlob :=
  if format = str "json" then
    .ok { content := jsonStringifyRows data, mime := str "application/json",
          filename := str "export.json" }
  else if format = str "csv" then
    match data with
    | [] => .error (str "TypeError: cannot read properties of undefined")
    | r0 :: _ =>
      .ok { content :=
              joinSep ['\n']
                ((joinSep [','] (r0.map Prod.fst)) ::
                  data.map (fun r => joinSep [','] (r.map Prod.snd)))
            mime := str "text/csv", filename := str "export.csv" }
  else
    .ok { content := str "Excel export would go here", mime := str "text/plain",
          filename := str "export.xlsx" }

/-! ## The module-level demo state and the stateful entry points -/

/-- The module-level `currentFileData` object of `demo-api.ts` (`null` when
no file has been uploaded). -/
structure CurrentFileData where
  headers : List Str
  data : List Row
  mappings : Obj Mapping
  cleanedData : List Row
  deriving Repr, DecidableEq

/-- The mutable module state shared by all demo API calls. -/
abbrev DemoState := Option CurrentFileData

/-- The result object of `demoApi.suggestMappings`. -/
structure SuggestResult where
  mappings : Obj Mapping
  status : Str
  deriving Repr, DecidableEq

/-- `demoApi.suggestMappings` with the module state made explicit: computes
the mapping set from its arguments, then stores it into `currentFileData`
when that is non-null. -/
def suggestMappingsS (headers : List Str) (sampleData : List Row)
    (targetSchema : Obj Str) (s : DemoState) : SuggestResult × DemoState :=
  let mappings := suggestMappings headers sampleData targetSchema
  ({ mappings := mappings, status := str "success" },
   s.map (fun fd => { fd with mappings := mappings }))

/-- `demoApi.validateData` with the module state made explicit: an empty
`data` argument falls back to `currentFileData?.data || []`.  The state is
read but not written. -/
def validateDataS (jobId : Str) (data : List Row) (s : DemoState) : ValidationResult :=
  let dataToValidate := if data ≠ [] then data else (s.map CurrentFileData.data).getD []
  validateRows jobId dataToValidate

/-- `demoApi.cleanData` with the module state made explicit: empty `data`
falls back to `currentFileData?.data || []`, an empty mapping set falls back
to `currentFileData?.mappings || {}`, and the cleaned rows are stored back
into the state when it is non-null. -/
def cleanDataS (jobId : Str) (data : List Row) (mappings : Obj Mapping)
    (s : DemoState) : CleanResult × DemoState :=
  let _ := jobId
  let dataToClean := if data ≠ [] then data else (s.map CurrentFileData.data).getD []
  let mappingsToUse := if mappings ≠ [] then mappings
    else (s.map CurrentFileData.mappings).getD []
  let result := cleanRows dataToClean mappingsToUse
  (result, s.map (fun fd => { fd with cleanedData := result.data }))

/-- The result object of `demoApi.exportData` (`Date.now()` in the file name
is passed in as `now`). -/
structure ExportResult where
  url : Str
  filename : Str
  data : List Row
  deriving Repr, DecidableEq

/-- `demoApi.exportData` with the module state made explicit: exports the
cleaned rows if present, else the raw rows; throws only `'No data to
export'` — the `format` string is never inspected, any format succeeds. -/
def exportDataS (jobId : Str) (format : Str) (now : Str) (s : DemoState) :
    Except Str ExportResult :=
  let _ := jobId
  let cleaned := (s.map CurrentFileData.cleanedData).getD []
  let dataToExport := if cleaned ≠ [] then cleaned else (s.map CurrentFileData.data).getD []
  if dataToExport = [] then .error (str "No data to export")
  else .ok { url := str "/export." ++ format,
             filename := str "cleaned_data_" ++ now ++ ['.'] ++ format,
             data := dataToExport }

/-! ## Helper lemmas: characters -/

theorem toNat_ofNat_valid {n : Nat} (h : n < 55296) : (Char.ofNat n).toNat = n := by
  have hv : n.isValidChar := Or.inl h
  simp only [Char.ofNat, hv, dite_true, Char.ofNatAux, Char.toNat, UInt32.toNat]
  simp

theorem jsToUpper_toNat {c : Char} (h : 97 ≤ c.toNat ∧ c.toNat ≤ 122) :
    (jsToUpper c).toNat = c.toNat - 32 := by
  rw [jsToUpper, if_pos h, toNat_ofNat_valid (by omega)]

theorem jsToLower_toNat {c : Char} (h : 65 ≤ c.toNat ∧ c.toNat ≤ 90) :
    (jsToLower c).toNat = c.toNat + 32 := by
  rw [jsToLower, if_pos h, toNat_ofNat_valid (by omega)]

theorem jsToUpper_eq_self {c : Char} (h : ¬ (97 ≤ c.toNat ∧ c.toNat ≤ 122)) :
    jsToUpper c = c := by
  unfold jsToUpper
  rw [if_neg h]

theorem jsToLower_eq_self {c : Char} (h : ¬ (65 ≤ c.toNat ∧ c.toNat ≤ 90)) :
    jsToLower c = c := by
  unfold jsToLower
  rw [if_neg h]

theorem jsToUpper_idem (c : Char) : jsToUpper (jsToUpper c) = jsToUpper c := by
  by_cases h : 97 ≤ c.toNat ∧ c.toNat ≤ 122
  · have ht := jsToUpper_toNat h
    exact jsToUpper_eq_self (by omega)
  · rw [jsToUpper_eq_self h]
    exact jsToUpper_eq_self h

theorem jsToLower_idem (c : Char) : jsToLower (jsToLower c) = jsToLower c := by
  by_cases h : 65 ≤ c.toNat ∧ c.toNat ≤ 90
  · have ht := jsToLower_toNat h
    exact jsToLower_eq_self (by omega)
  · rw [jsToLower_eq_self h]
    exact jsToLower_eq_self h

theorem jsToUpper_ne_space {c : Char} (h : c ≠ ' ') : jsToUpper c ≠ ' ' := by
  intro he
  by_cases hr : 97 ≤ c.toNat ∧ c.toNat ≤ 122
  · have ht := jsToUpper_toNat hr
    rw [he, show (' ' : Char).toNat = 32 from rfl] at ht
    omega
  · rw [jsToUpper_eq_self hr] at he
    exact h he

theorem jsToLower_ne_space {c : Char} (h : c ≠ ' ') : jsToLower c ≠ ' ' := by
  intro he
  by_cases hr : 65 ≤ c.toNat ∧ c.toNat ≤ 90
  · have ht := jsToLower_toNat hr
    rw [he, show (' ' : Char).toNat = 32 from rfl] at ht
    omega
  · rw [jsToLower_eq_self hr] at he
    exact h he

theorem isDigit_not_jsSpace {c : Char} (h : c.isDigit) : jsSpace c = false := by
  have hall : ∀ d ∈ jsSpaceChars, ¬ d.isDigit := by decide
  by_contra hc
  have hmem : c ∈ jsSpaceChars := by
    have ht : jsSpaceChars.contains c = true := by
      revert hc
      rw [jsSpace]
      cases jsSpaceChars.contains c <;> simp
    simpa [List.elem_iff] using ht
  exact hall c hmem h

/-! ## Helper lemmas: trimming -/

theorem dropWhile_self (p : α → Bool) (l : List α) :
    (l.dropWhile p).dropWhile p = l.dropWhile p := by
  induction l with
  | nil => simp
  | cons c cs ih =>
    by_cases h : p c
    · simpa [List.dropWhile_cons, h] using ih
    · simp [List.dropWhile_cons, h]

theorem dropWhile_eq_or_lt (p : α → Bool) (l : List α) :
    l.dropWhile p = l ∨ (l.dropWhile p).length < l.length := by
  induction l with
  | nil => simp
  | cons c cs ih =>
    by_cases h : p c
    · right
      simp only [List.dropWhile_cons, h, if_true]
      calc (cs.dropWhile p).length ≤ cs.length := (List.dropWhile_sublist p).length_le
        _ < (c :: cs).length := by simp
    · left; simp [List.dropWhile_cons, h]

theorem trimStart_idem (l : Str) : trimStart (trimStart l) = trimStart l :=
  dropWhile_self jsSpace l

theorem trimEnd_idem (l : Str) : trimEnd (trimEnd l) = trimEnd l := by
  simp [trimEnd, dropWhile_self]

theorem trimStart_cons {c : Char} (h : ¬ jsSpace c) (l : Str) :
    trimStart (c :: l) = c :: l := by
  simp [trimStart, List.dropWhile_cons, h]

theorem trimEnd_concat {c : Char} (h : ¬ jsSpace c) (l : Str) :
    trimEnd (l ++ [c]) = l ++ [c] := by
  simp [trimEnd, List.dropWhile_cons, h]

theorem trimStart_eq_self_of_length (l : Str) (h : (trimStart l).length = l.length) :
    trimStart l = l := by
  rcases dropWhile_eq_or_lt jsSpace l with he | hl
  · exact he
  · exact absurd h (by rw [trimStart] at *; omega)

theorem trimEnd_length_le (l : Str) : (trimEnd l).length ≤ l.length := by
  simpa [trimEnd] using (List.dropWhile_sublist (l := l.reverse) jsSpace).length_le

theorem trimStart_length_le (l : Str) : (trimStart l).length ≤ l.length :=
  (List.dropWhile_sublist jsSpace).length_le

theorem trimStart_of_trimmed {l : Str} (h : jsTrim l = l) : trimStart l = l := by
  have h1 := trimStart_length_le l
  have h2 := trimEnd_length_le (trimStart l)
  rw [jsTrim] at h
  have : (trimEnd (trimStart l)).length = l.length := by rw [h]
  exact trimStart_eq_self_of_length l (by omega)

theorem trimEnd_of_trimmed {l : Str} (h : jsTrim l = l) : trimEnd l = l := by
  have hs := trimStart_of_trimmed h
  rw [jsTrim, hs] at h
  exact h

theorem not_space_head_of_trimmed {c : Char} {l : Str} (h : jsTrim (c :: l) = c :: l) :
    ¬ jsSpace c := by
  intro hc
  have hs := trimStart_of_trimmed h
  rw [trimStart, List.dropWhile_cons, if_pos hc] at hs
  have := (List.dropWhile_sublist (l := l) jsSpace).length_le
  have := congrArg List.length hs
  simp at this
  omega

theorem not_space_last_of_trimmed {c : Char} {l : Str} (h : jsTrim (l ++ [c]) = l ++ [c]) :
    ¬ jsSpace c := by
  intro hc
  have hs := trimEnd_of_trimmed h
  rw [trimEnd, List.reverse_append] at hs
  simp only [List.reverse_cons, List.reverse_nil, List.nil_append, List.singleton_append,
    List.dropWhile_cons, if_pos hc] at hs
  have hle : (l.reverse.dropWhile jsSpace).length ≤ l.reverse.length :=
    (List.dropWhile_sublist (l := l.reverse) jsSpace).length_le
  rw [List.length_reverse] at hle
  have hlen := congrArg List.length hs
  simp at hlen
  omega

theorem exists_trimEnd_append (x : Str) : ∃ s, x = trimEnd x ++ s := by
  refine ⟨(x.reverse.takeWhile jsSpace).reverse, ?_⟩
  have h := List.takeWhile_append_dropWhile (p := jsSpace) (l := x.reverse)
  have h2 := congrArg List.reverse h
  simp only [List.reverse_append, List.reverse_reverse] at h2
  rw [trimEnd]
  exact h2.symm

theorem trimStart_trimEnd_comm {x : Str} (hxfix : trimStart x = x) :
    trimStart (trimEnd x) = trimEnd x := by
  rcases he : trimEnd x with _ | ⟨c, t⟩
  · simp [trimStart]
  · obtain ⟨s, hxs⟩ := exists_trimEnd_append x
    rw [he] at hxs
    have hc : ¬ jsSpace c := by
      intro hcs
      rw [hxs] at hxfix
      rw [List.cons_append, trimStart, List.dropWhile_cons, if_pos hcs] at hxfix
      have hle : ((t ++ s).dropWhile jsSpace).length ≤ (t ++ s).length :=
        (List.dropWhile_sublist jsSpace).length_le
      have hlen := congrArg List.length hxfix
      simp only [List.length_cons] at hlen
      omega
    exact trimStart_cons hc t

theorem jsTrim_idem (l : Str) : jsTrim (jsTrim l) = jsTrim l := by
  unfold jsTrim
  rw [trimStart_trimEnd_comm (trimStart_idem l), trimEnd_idem]

theorem jsTrim_eq_self {c d : Char} {m : Str} (h1 : ¬ jsSpace c) (h2 : ¬ jsSpace d) :
    jsTrim (c :: m ++ [d]) = c :: m ++ [d] := by
  rw [jsTrim, show c :: m ++ [d] = c :: (m ++ [d]) from rfl, trimStart_cons h1,
    show c :: (m ++ [d]) = (c :: m) ++ [d] from rfl, trimEnd_concat h2]

theorem jsTrim_singleton {c : Char} (h : ¬ jsSpace c) : jsTrim [c] = [c] := by
  rw [jsTrim, trimStart_cons h, show [c] = [] ++ [c] from rfl, trimEnd_concat h]

/-! ## Helper lemmas: splitting and joining -/

theorem jsSpace_iff_mem {c : Char} : jsSpace c = true ↔ c ∈ jsSpaceChars := by
  rw [jsSpace]
  exact List.elem_iff

theorem not_space_toUpper {c : Char} (h : ¬ jsSpace c) : ¬ jsSpace (jsToUpper c) := by
  by_cases hr : 97 ≤ c.toNat ∧ c.toNat ≤ 122
  · intro hs
    have hm : jsToUpper c ∈ jsSpaceChars := jsSpace_iff_mem.mp (by simpa using hs)
    have hrange : ∀ d ∈ jsSpaceChars, ¬ (65 ≤ d.toNat ∧ d.toNat ≤ 90) := by decide
    have ht := jsToUpper_toNat hr
    exact hrange _ hm (by omega)
  · rw [jsToUpper_eq_self hr]
    exact h

theorem not_space_toLower {c : Char} (h : ¬ jsSpace c) : ¬ jsSpace (jsToLower c) := by
  by_cases hr : 65 ≤ c.toNat ∧ c.toNat ≤ 90
  · intro hs
    have hm : jsToLower c ∈ jsSpaceChars := jsSpace_iff_mem.mp (by simpa using hs)
    have hrange : ∀ d ∈ jsSpaceChars, ¬ (97 ≤ d.toNat ∧ d.toNat ≤ 122) := by decide
    have ht := jsToLower_toNat hr
    exact hrange _ hm (by omega)
  · rw [jsToLower_eq_self hr]
    exact h

theorem splitOnChar_ne_nil (sep : Char) (l : Str) : splitOnChar sep l ≠ [] := by
  induction l with
  | nil => simp [splitOnChar]
  | cons c cs ih =>
    rw [splitOnChar]
    by_cases h : c = sep
    · simp [h]
    · rw [if_neg h]
      rcases hs : splitOnChar sep cs with _ | ⟨w, ws⟩
      · exact absurd hs ih
      · simp

theorem splitOnChar_cons_of_ne {sep c : Char} (h : c ≠ sep) (l : Str) :
    ∃ w ws, splitOnChar sep l = w :: ws ∧ splitOnChar sep (c :: l) = (c :: w) :: ws := by
  rcases hs : splitOnChar sep l with _ | ⟨w, ws⟩
  · exact absurd hs (splitOnChar_ne_nil sep l)
  · refine ⟨w, ws, rfl, ?_⟩
    rw [splitOnChar, if_neg h, hs]

theorem splitOnChar_concat {sep d : Char} (hd : d ≠ sep) :
    ∀ x : Str, ∃ ws w, splitOnChar sep (x ++ [d]) = ws ++ [w ++ [d]] := by
  intro x
  induction x with
  | nil =>
    refine ⟨[], [], ?_⟩
    rw [List.nil_append, splitOnChar, if_neg hd]
    simp [splitOnChar]
  | cons c t ih =>
    obtain ⟨ws, w, hws⟩ := ih
    by_cases hc : c = sep
    · refine ⟨[] :: ws, w, ?_⟩
      rw [List.cons_append, splitOnChar, if_pos hc, hws]
      rfl
    · obtain ⟨w0, ws0, hsplit, hcons⟩ := splitOnChar_cons_of_ne hc (t ++ [d])
      rcases ws with _ | ⟨w1, ws1⟩
      · rw [hws] at hsplit
        simp only [List.nil_append, List.cons.injEq] at hsplit
        refine ⟨[], c :: w, ?_⟩
        rw [List.cons_append, hcons, hsplit.1.symm, ← hsplit.2]
        rfl
      · rw [hws] at hsplit
        simp only [List.cons_append, List.cons.injEq] at hsplit
        refine ⟨(c :: w1) :: ws1, w, ?_⟩
        rw [List.cons_append, hcons, hsplit.1.symm, ← hsplit.2]
        rfl

theorem mem_splitOnChar_not_sep {sep : Char} :
    ∀ (l : Str) (w : Str), w ∈ splitOnChar sep l → sep ∉ w := by
  intro l
  induction l with
  | nil =>
    intro w hw
    simp [splitOnChar] at hw
    simp [hw]
  | cons c cs ih =>
    intro w hw
    rw [splitOnChar] at hw
    by_cases hc : c = sep
    · rw [if_pos hc, List.mem_cons] at hw
      rcases hw with rfl | hw
      · simp
      · exact ih w hw
    · rw [if_neg hc] at hw
      rcases hs : splitOnChar sep cs with _ | ⟨w0, ws0⟩
      · exact absurd hs (splitOnChar_ne_nil sep cs)
      · rw [hs, List.mem_cons] at hw
        rcases hw with rfl | hw
        · intro hmem
          rw [List.mem_cons] at hmem
          rcases hmem with hmem | hmem
          · exact hc hmem.symm
          · exact ih w0 (by rw [hs]; exact List.mem_cons_self w0 ws0) hmem
        · exact ih w (by rw [hs]; exact List.mem_cons_of_mem w0 hw)

theorem splitOnChar_no_sep {sep : Char} {w : Str} (h : sep ∉ w) :
    splitOnChar sep w = [w] := by
  induction w with
  | nil => rfl
  | cons c cs ih =>
    have hc : c ≠ sep := fun he => h (by simp [he])
    have hcs : sep ∉ cs := fun hm => h (List.mem_cons_of_mem c hm)
    rw [splitOnChar, if_neg hc, ih hcs]

theorem splitOnChar_append_sep {sep : Char} {w : Str} (h : sep ∉ w) (r : Str) :
    splitOnChar sep (w ++ sep :: r) = w :: splitOnChar sep r := by
  induction w with
  | nil => simp [splitOnChar]
  | cons c cs ih =>
    have hc : c ≠ sep := fun he => h (by simp [he])
    have hcs : sep ∉ cs := fun hm => h (List.mem_cons_of_mem c hm)
    rw [List.cons_append, splitOnChar, if_neg hc, ih hcs]

theorem joinSep_single (s x : Str) : joinSep s [x] = x := rfl

theorem joinSep_cons_cons (s x y : Str) (ys : List Str) :
    joinSep s (x :: y :: ys) = x ++ s ++ joinSep s (y :: ys) := rfl

theorem splitOnChar_joinSep {sep : Char} :
    ∀ (ws : List Str), ws ≠ [] → (∀ w ∈ ws, sep ∉ w) →
      splitOnChar sep (joinSep [sep] ws) = ws := by
  intro ws
  induction ws with
  | nil => intro h; exact absurd rfl h
  | cons w ws ih =>
    intro _ hall
    rcases ws with _ | ⟨y, ys⟩
    · exact splitOnChar_no_sep (hall w (by simp))
    · rw [joinSep_cons_cons, List.append_assoc, List.singleton_append,
        splitOnChar_append_sep (hall w (by simp))]
      rw [ih (by simp) (fun v hv => hall v (List.mem_cons_of_mem w hv))]

theorem joinSep_first (s x : Str) (xs : List Str) :
    ∃ r, joinSep s (x :: xs) = x ++ r := by
  rcases xs with _ | ⟨y, ys⟩
  · exact ⟨[], by simp [joinSep_single]⟩
  · exact ⟨s ++ joinSep s (y :: ys), by rw [joinSep_cons_cons, List.append_assoc]⟩

theorem joinSep_ends (s : Str) :
    ∀ (ws : List Str) (w : Str), ∃ q, joinSep s (ws ++ [w]) = q ++ w := by
  intro ws
  induction ws with
  | nil => exact fun w => ⟨[], by simp [joinSep_single]⟩
  | cons v ws ih =>
    intro w
    obtain ⟨q, hq⟩ := ih w
    rcases ws with _ | ⟨y, ys⟩
    · refine ⟨v ++ s, ?_⟩
      rw [show ([v] ++ [w] : List Str) = v :: [w] from rfl, joinSep_cons_cons, joinSep_single]
    · refine ⟨v ++ s ++ q, ?_⟩
      rw [show ((v :: y :: ys) ++ [w] : List Str) = v :: y :: (ys ++ [w]) from rfl,
        joinSep_cons_cons]
      rw [List.cons_append] at hq
      rw [hq]
      simp [List.append_assoc]

/-! ## Helper lemmas: title-casing -/

theorem capWord_cons (c : Char) (cs : Str) :
    capWord (c :: cs) = jsToUpper c :: cs.map jsToLower := rfl

theorem capWord_no_space {w : Str} (h : ' ' ∉ w) : ' ' ∉ capWord w := by
  rcases w with _ | ⟨c, cs⟩
  · simp [capWord]
  · rw [capWord_cons]
    intro hmem
    rw [List.mem_cons] at hmem
    rcases hmem with hmem | hmem
    · exact jsToUpper_ne_space (fun he => h (by simp [he])) hmem.symm
    · obtain ⟨x, hx, hxe⟩ := List.mem_map.mp hmem
      exact jsToLower_ne_space (fun he => h (List.mem_cons_of_mem c (he ▸ hx))) hxe

theorem capWord_idem (w : Str) : capWord (capWord w) = capWord w := by
  rcases w with _ | ⟨c, cs⟩
  · rfl
  · rw [capWord_cons, capWord_cons, jsToUpper_idem, List.map_map]
    congr 1
    exact List.map_congr_left (fun x _ => jsToLower_idem x)

theorem capWord_concat (w : Str) (d : Char) :
    ∃ q e, capWord (w ++ [d]) = q ++ [e] ∧ (¬ jsSpace d → ¬ jsSpace e) := by
  rcases w with _ | ⟨a, w'⟩
  · exact ⟨[], jsToUpper d, rfl, fun h => not_space_toUpper h⟩
  · refine ⟨jsToUpper a :: w'.map jsToLower, jsToLower d, ?_, fun h => not_space_toLower h⟩
    rw [List.cons_append, capWord_cons, List.map_append]
    rfl

theorem properCase_idem (t : Str) : properCase (properCase t) = properCase t := by
  unfold properCase
  rw [splitOnChar_joinSep ((splitOnChar ' ' t).map capWord)
    (by
      intro hmap
      exact splitOnChar_ne_nil ' ' t (List.map_eq_nil_iff.mp hmap))
    (by
      intro w hw
      obtain ⟨w0, hw0, hwe⟩ := List.mem_map.mp hw
      rw [← hwe]
      exact capWord_no_space (mem_splitOnChar_not_sep t w0 hw0))]
  rw [List.map_map]
  congr 1
  exact List.map_congr_left (fun w _ => capWord_idem w)

theorem properCase_trimmed {t : Str} (h : jsTrim t = t) :
    jsTrim (properCase t) = properCase t := by
  rcases t with _ | ⟨c, t'⟩
  · rfl
  · have hc : ¬ jsSpace c := not_space_head_of_trimmed h
    have hcsp : c ≠ ' ' := fun he => hc (by rw [he]; decide)
    rcases List.eq_nil_or_concat (c :: t') with habs | ⟨m, dl, hend⟩
    · exact absurd habs (by simp)
    rw [List.concat_eq_append] at hend
    have h2 := h
    rw [hend] at h2
    have hdl : ¬ jsSpace dl := not_space_last_of_trimmed h2
    have hdlsp : dl ≠ ' ' := fun he => hdl (by rw [he]; decide)
    obtain ⟨w, ws, _, hconsform⟩ := splitOnChar_cons_of_ne hcsp t'
    obtain ⟨r, hr⟩ := joinSep_first [' '] (capWord (c :: w)) (ws.map capWord)
    have hfront : properCase (c :: t') = jsToUpper c :: (w.map jsToLower ++ r) := by
      unfold properCase
      rw [hconsform, List.map_cons, hr, capWord_cons, List.cons_append]
    obtain ⟨ws2, w2, hsplit2⟩ := splitOnChar_concat hdlsp m
    obtain ⟨q2, e2, hcap2, he2⟩ := capWord_concat w2 dl
    obtain ⟨q3, hq3⟩ := joinSep_ends [' '] (ws2.map capWord) (capWord (w2 ++ [dl]))
    have hback : properCase (c :: t') = (q3 ++ q2) ++ [e2] := by
      unfold properCase
      rw [hend, hsplit2, List.map_append, List.map_singleton, hq3, hcap2,
        List.append_assoc]
    unfold jsTrim
    rw [hfront, trimStart_cons (not_space_toUpper hc), ← hfront]
    rw [hback, trimEnd_concat (he2 hdl), ← hback]

/-! ## Helper lemmas: JS objects -/

theorem objInsert_map_fst (r : Obj β) (k : Str) (v : β) :
    (objInsert r k v).map Prod.fst =
      if k ∈ r.map Prod.fst then r.map Prod.fst else r.map Prod.fst ++ [k] := by
  unfold objInsert
  by_cases hm : k ∈ r.map Prod.fst
  · rw [if_pos hm, if_pos hm, List.map_map]
    refine List.map_congr_left ?_
    intro p _
    by_cases hp : p.1 = k
    · simp [hp]
    · simp [hp]
  · rw [if_neg hm, if_neg hm]
    simp

theorem objInsert_keys_nodup {r : Obj β} (h : (r.map Prod.fst).Nodup) (k : Str) (v : β) :
    ((objInsert r k v).map Prod.fst).Nodup := by
  rw [objInsert_map_fst]
  by_cases hm : k ∈ r.map Prod.fst
  · rw [if_pos hm]
    exact h
  · rw [if_neg hm]
    refine List.Nodup.append h (by simp) ?_
    intro x hx hk
    simp only [List.mem_singleton] at hk
    exact hm (hk ▸ hx)

theorem foldl_keys_nodup {α : Type} (f : Obj β → α → Obj β)
    (hf : ∀ acc a, f acc a = acc ∨ ∃ k v, f acc a = objInsert acc k v) :
    ∀ (l : List α) (acc : Obj β), (acc.map Prod.fst).Nodup →
      ((l.foldl f acc).map Prod.fst).Nodup := by
  intro l
  induction l with
  | nil => intro acc h; simpa using h
  | cons a l ih =>
    intro acc h
    rw [List.foldl_cons]
    rcases hf acc a with he | ⟨k, v, he⟩
    · rw [he]
      exact ih acc h
    · rw [he]
      exact ih _ (objInsert_keys_nodup h k v)

/-! ## Claims -/

/-- **C1**, counterexample.  For headers `["Email Address"]` and schema
`{email}`, `suggestMappings` produces confidence 0.8, not the 0.9 the claim
states: the substring branch fires (and shadows the keyword branch) because
`"emailaddress"` contains `"email"`. -/
theorem c1_counterexample :
    (suggestMappings [str "Email Address"] [] [(str "email", str "string")]).map
        (fun p => (p.1, p.2.target_field, p.2.confidence)) =
      [(str "Email Address", str "email", mkRat 4 5)] ∧ (mkRat 4 5 ≠ mkRat 9 10) := by
  decide

/-- **C1**, amended.  For the single header `"Email Address"` and a target
schema containing the field `email`, `suggestMappings` returns a mapping from
`"Email Address"` to `email` with confidence 0.8 and reasoning
`"Partial match with good confidence"`: the substring rule fires because the
per-field check chain tests the substring rule before the keyword rule, so
the keyword branch is never reached for this header. -/
theorem c1_amended :
    suggestMappings [str "Email Address"] [] [(str "email", str "string")] =
      [(str "Email Address",
        { source_column := str "Email Address", target_field := str "email",
          confidence := mkRat 4 5,
          reasoning := str "Partial match with good confidence" })] := by
  decide

/-- **C2**, counterexample.  The headers `["phone", "mobile"]` against the
schema `{phone}` produce two mappings that both claim `targetField`
`phone` (scores 1.0 and 0.9): `suggestMappings` has no claimed-target
tracking, so target-field uniqueness fails. -/
theorem c2_counterexample :
    (suggestMappings [str "phone", str "mobile"] [] [(str "phone", str "string")]).map
        (fun p => p.2.target_field) = [str "phone", str "phone"] ∧
    ¬ List.Pairwise (fun p q : Str × Mapping => p.2.target_field ≠ q.2.target_field)
        (suggestMappings [str "phone", str "mobile"] [] [(str "phone", str "string")]) := by
  decide

/-- **C2**, amended.  `suggestMappings` does not enforce target-field
uniqueness (two different headers may map to one target field); what holds
is uniqueness per source header: the returned mapping set is an object keyed
by source header, so its keys are pairwise distinct. -/
theorem c2_amended (headers : List Str) (sampleData : List Row)
    (targetSchema : Obj Str) :
    ((suggestMappings headers sampleData targetSchema).map Prod.fst).Nodup := by
  unfold suggestMappings
  refine foldl_keys_nodup _ ?_ headers [] (by simp)
  intro acc h
  rcases hbt : bestTarget (normalizeHeader h) (targetSchema.map Prod.fst) with ⟨bm, score⟩
  rcases bm with _ | f
  · left
    simp [hbt]
  · by_cases hf : f = []
    · left
      simp [hbt, hf]
    · right
      exact ⟨h, { source_column := h, target_field := f, confidence := score,
                  reasoning := mkReasoning score }, by simp [hbt, hf]⟩

/-- The session state used by the C3 counterexample: an uploaded file whose
single row has an invalid email value. -/
def sampleFileData : CurrentFileData :=
  { headers := [str "email"], data := [[(str "email", str "bad")]],
    mappings := [], cleanedData := [] }

/-- **C3**, counterexample.  `validateData` called with an empty `data`
argument returns different results depending on the module-level
`currentFileData` left by earlier calls (it falls back to the session rows),
and `suggestMappings` writes the computed mapping set into that shared
state; so the demo operations are not pure functions of their explicit
arguments. -/
theorem c3_counterexample :
    validateDataS (str "job") [] (some sampleFileData) ≠
      validateDataS (str "job") [] none ∧
    (suggestMappingsS [str "Email"] [] [(str "email", str "s")]
        (some sampleFileData)).2 ≠ some sampleFileData := by
  decide

/-- **C3**, amended.  The returned value of `suggestMappings` is a pure
function of its explicit arguments (though the call writes the session
state), and `validateData` / `cleanData` return values independent of the
session state whenever their `data` (and for `cleanData` also `mappings`)
arguments are non-empty; with empty arguments they read the shared
`currentFileData` fallback. -/
theorem c3_amended :
    (∀ (headers : List Str) (sampleData : List Row) (targetSchema : Obj Str)
        (s s' : DemoState),
      (suggestMappingsS headers sampleData targetSchema s).1 =
        (suggestMappingsS headers sampleData targetSchema s').1) ∧
    (∀ (jobId : Str) (data : List Row) (s s' : DemoState), data ≠ [] →
      validateDataS jobId data s = validateDataS jobId data s') ∧
    (∀ (jobId : Str) (data : List Row) (mappings : Obj Mapping) (s s' : DemoState),
      data ≠ [] → mappings ≠ [] →
      (cleanDataS jobId data mappings s).1 = (cleanDataS jobId data mappings s').1) := by
  refine ⟨?_, ?_, ?_⟩
  · intro headers sampleData targetSchema s s'
    rfl
  · intro jobId data s s' h
    unfold validateDataS
    rw [if_pos h, if_pos h]
  · intro jobId data mappings s s' h1 h2
    unfold cleanDataS
    simp only [if_pos h1, if_pos h2]

/-- **C3**, witness for the amended theorem at concrete inputs. -/
theorem c3_amended_witness :
    validateDataS (str "j") [[(str "a", str "b")]] none =
      validateDataS (str "j") [[(str "a", str "b")]] (some sampleFileData) ∧
    (cleanDataS (str "j") [[(str "a", str "b")]]
        [(str "a", { source_column := str "a", target_field := str "x",
                     confidence := 1, reasoning := str "r" })] none).1 =
      (cleanDataS (str "j") [[(str "a", str "b")]]
        [(str "a", { source_column := str "a", target_field := str "x",
                     confidence := 1, reasoning := str "r" })] (some sampleFileData)).1 :=
  ⟨c3_amended.2.1 (str "j") [[(str "a", str "b")]] none (some sampleFileData) (by decide),
   c3_amended.2.2 (str "j") [[(str "a", str "b")]]
     [(str "a", { source_column := str "a", target_field := str "x",
                  confidence := 1, reasoning := str "r" })] none (some sampleFileData)
     (by decide) (by decide)⟩

/-- `cleanData` dispatches the `phone` target field to the phone branch. -/
theorem cleanValueForField_phone (t : Str) :
    cleanValueForField (str "phone") t = cleanPhoneValue t := by
  unfold cleanValueForField
  rw [if_neg (by decide), if_pos rfl]

/-- Every element of ten is drawn out explicitly. -/
theorem length_ten_exists {l : List α} (h : l.length = 10) :
    ∃ a b c d e f g hh i j, l = [a, b, c, d, e, f, g, hh, i, j] := by
  rcases l with _ | ⟨a, l⟩
  · simp only [List.length_nil] at h
    omega
  rcases l with _ | ⟨b, l⟩
  · simp only [List.length_cons, List.length_nil] at h
    omega
  rcases l with _ | ⟨c, l⟩
  · simp only [List.length_cons, List.length_nil] at h
    omega
  rcases l with _ | ⟨d, l⟩
  · simp only [List.length_cons, List.length_nil] at h
    omega
  rcases l with _ | ⟨e, l⟩
  · simp only [List.length_cons, List.length_nil] at h
    omega
  rcases l with _ | ⟨f, l⟩
  · simp only [List.length_cons, List.length_nil] at h
    omega
  rcases l with _ | ⟨g, l⟩
  · simp only [List.length_cons, List.length_nil] at h
    omega
  rcases l with _ | ⟨hh, l⟩
  · simp only [List.length_cons, List.length_nil] at h
    omega
  rcases l with _ | ⟨i, l⟩
  · simp only [List.length_cons, List.length_nil] at h
    omega
  rcases l with _ | ⟨j, l⟩
  · simp only [List.length_cons, List.length_nil] at h
    omega
  rcases l with _ | ⟨k, l⟩
  · exact ⟨a, b, c, d, e, f, g, hh, i, j, rfl⟩
  · simp only [List.length_cons] at h
    omega

/-- **C5**.  For every row value in a column mapped to target field `phone`,
the cleaning engine strips all non-digit characters from the trimmed value;
with exactly 10 digits remaining it produces `+1-` and the three hyphenated
digit groups, otherwise the trimmed original; in particular `cleanData`
turns `"555.456.7890"` into `"+1-555-456-7890"`. -/
theorem c5_phone_cleaning :
    (∀ v : Str,
      (((jsTrim v).filter Char.isDigit).length = 10 →
        ∃ a b c d e f g h i j,
          (jsTrim v).filter Char.isDigit = [a, b, c, d, e, f, g, h, i, j] ∧
          cleanValueForField (str "phone") (jsTrim v) =
            ['+', '1', '-', a, b, c, '-', d, e, f, '-', g, h, i, j]) ∧
      (((jsTrim v).filter Char.isDigit).length ≠ 10 →
        cleanValueForField (str "phone") (jsTrim v) = jsTrim v)) ∧
    (cleanRows [[(str "phone", str "555.456.7890")]]
        [(str "phone",
          { source_column := str "phone", target_field := str "phone",
            confidence := mkRat 9 10,
            reasoning := str "High confidence match based on field name" })]).data =
      [[(str "phone", str "+1-555-456-7890")]] := by
  constructor
  · intro v
    constructor
    · intro h10
      obtain ⟨a, b, c, d, e, f, g, h, i, j, hd⟩ := length_ten_exists h10
      refine ⟨a, b, c, d, e, f, g, h, i, j, hd, ?_⟩
      rw [cleanValueForField_phone]
      unfold cleanPhoneValue
      rw [hd]
      rfl
    · intro hne
      rw [cleanValueForField_phone]
      unfold cleanPhoneValue
      simp only [if_neg hne]
  · decide

/-- **C5**, witness at the value `"555.456.7890"`. -/
theorem c5_phone_cleaning_witness :
    ∃ a b c d e f g h i j,
      (jsTrim (str "555.456.7890")).filter Char.isDigit = [a, b, c, d, e, f, g, h, i, j] ∧
      cleanValueForField (str "phone") (jsTrim (str "555.456.7890")) =
        ['+', '1', '-', a, b, c, '-', d, e, f, '-', g, h, i, j] :=
  (c5_phone_cleaning.1 (str "555.456.7890")).1 (by decide)

/-- **C8**, counterexample.  An export with format `"xlsx"` (neither `csv`
nor `json`) does not signal any unsupported-format error: the UI export
switch emits a plain-text placeholder blob, and `demoApi.exportData`
succeeds for any format string whatsoever. -/
theorem c8_counterexample :
    exportBlobSwitch (str "xlsx") [[(str "a", str "b")]] =
      .ok { content := str "Excel export would go here", mime := str "text/plain",
            filename := str "export.xlsx" } ∧
    exportDataS (str "j") (str "xlsx") (str "0")
        (some { headers := [str "a"], data := [[(str "a", str "b")]],
                mappings := [], cleanedData := [] }) =
      .ok { url := str "/export.xlsx", filename := str "cleaned_data_0.xlsx",
            data := [[(str "a", str "b")]] } := by
  decide

/-- **C8**, amended.  No `UnsupportedFormatError` exists in the export path:
for every format other than `csv` and `json` the UI export switch emits the
fixed plain-text placeholder blob (`export.xlsx`), and `demoApi.exportData`
can only fail with `"No data to export"` — it never inspects the format. -/
theorem c8_amended :
    (∀ (format : Str) (data : List Row), format ≠ str "csv" → format ≠ str "json" →
      exportBlobSwitch format data =
        .ok { content := str "Excel export would go here", mime := str "text/plain",
              filename := str "export.xlsx" }) ∧
    (∀ (jobId format now : Str) (s : DemoState) (e : Str),
      exportDataS jobId format now s = .error e → e = str "No data to export") := by
  constructor
  · intro format data h1 h2
    unfold exportBlobSwitch
    rw [if_neg h2, if_neg h1]
  · intro jobId format now s e h
    simp only [exportDataS] at h
    split at h <;> try split at h
    all_goals
      first
        | exact (Except.error.inj h).symm
        | simp at h

/-- **C8**, witness for the amended theorem at concrete inputs. -/
theorem c8_amended_witness :
    exportBlobSwitch (str "pdf") [] =
      .ok { content := str "Excel export would go here", mime := str "text/plain",
            filename := str "export.xlsx" } ∧
    str "No data to export" = str "No data to export" :=
  ⟨c8_amended.1 (str "pdf") [] (by decide) (by decide),
   (c8_amended.2 (str "j") (str "pdf") (str "0") none (str "No data to export")
     (by decide)).symm ▸ rfl⟩

/-- `cleanData` dispatches the `first_name` target field to title-casing. -/
theorem cleanValueForField_first_name (t : Str) :
    cleanValueForField (str "first_name") t = properCase t := by
  unfold cleanValueForField
  rw [if_neg (by decide), if_neg (by decide), if_pos (Or.inl rfl)]

/-- `cleanData` dispatches the `last_name` target field to title-casing. -/
theorem cleanValueForField_last_name (t : Str) :
    cleanValueForField (str "last_name") t = properCase t := by
  unfold cleanValueForField
  rw [if_neg (by decide), if_neg (by decide), if_pos (Or.inr rfl)]

/-- **C4**, counterexample.  The email transform is not idempotent: each typo
substitution replaces only the first occurrence of its pattern, so a value
carrying two occurrences of a typo domain changes again on the second
cleaning pass. -/
theorem c4_counterexample :
    cleanValueForField (str "email")
        (jsTrim (cleanValueForField (str "email")
          (jsTrim (str "a@gmial.com b@gmial.com")))) ≠
      cleanValueForField (str "email") (jsTrim (str "a@gmial.com b@gmial.com")) := by
  decide

/-- **C4**, amended.  The phone transform of the cleaning engine (trim, strip
non-digits, reformat ten-digit values) is idempotent on every string value.
The name transforms (trim, then title-case) are idempotent on every value
whose characters are ASCII: the char-to-char case maps used here model
JS toUpperCase and toLowerCase exactly on that domain, while outside it JS
uses Unicode full case mapping, under which title-casing need not be
idempotent (toUpperCase sends the character U+00DF to the two-character
string SS, which a second pass title-cases to Ss), so no claim is made
there.  The email transform is excluded, since its first-occurrence-only
substitutions are not idempotent in general. -/
theorem c4_amended (v : Str) :
    cleanValueForField (str "phone")
        (jsTrim (cleanValueForField (str "phone") (jsTrim v))) =
      cleanValueForField (str "phone") (jsTrim v) ∧
    ((∀ c ∈ v, c.toNat < 128) →
      cleanValueForField (str "first_name")
          (jsTrim (cleanValueForField (str "first_name") (jsTrim v))) =
        cleanValueForField (str "first_name") (jsTrim v) ∧
      cleanValueForField (str "last_name")
          (jsTrim (cleanValueForField (str "last_name") (jsTrim v))) =
        cleanValueForField (str "last_name") (jsTrim v)) := by
  refine ⟨?_, fun _ => ⟨?_, ?_⟩⟩
  · rw [cleanValueForField_phone, cleanValueForField_phone]
    by_cases h10 : ((jsTrim v).filter Char.isDigit).length = 10
    · obtain ⟨a, b, c, d, e, f, g, hh, i, j, hd⟩ := length_ten_exists h10
      have hdig : ∀ x ∈ [a, b, c, d, e, f, g, hh, i, j], Char.isDigit x := by
        intro x hx
        exact List.of_mem_filter (hd ▸ hx)
      have hfmt : cleanPhoneValue (jsTrim v) =
          '+' :: '1' :: '-' :: a :: b :: c :: '-' :: d :: e :: f :: '-' ::
            g :: hh :: i :: [j] := by
        simp only [cleanPhoneValue]
        rw [hd]
        rfl
      rw [hfmt]
      have hj : ¬ jsSpace j := by
        simp [isDigit_not_jsSpace (hdig j (by simp))]
      have htrim : jsTrim ('+' :: '1' :: '-' :: a :: b :: c :: '-' :: d :: e :: f :: '-' ::
            g :: hh :: i :: [j]) =
          '+' :: '1' :: '-' :: a :: b :: c :: '-' :: d :: e :: f :: '-' ::
            g :: hh :: i :: [j] := by
        have hform : ('+' :: '1' :: '-' :: a :: b :: c :: '-' :: d :: e :: f :: '-' ::
              g :: hh :: i :: [j] : Str) =
            '+' :: ('1' :: '-' :: a :: b :: c :: '-' :: d :: e :: f :: '-' ::
              g :: hh :: [i]) ++ [j] := by simp
        rw [hform]
        exact jsTrim_eq_self (by decide) hj
      rw [htrim]
      simp only [cleanPhoneValue]
      have hfil : ('+' :: '1' :: '-' :: a :: b :: c :: '-' :: d :: e :: f :: '-' ::
            g :: hh :: i :: [j] : Str).filter Char.isDigit =
          '1' :: a :: b :: c :: d :: e :: f :: g :: hh :: i :: [j] := by
        simp [List.filter_cons, hdig a (by simp), hdig b (by simp), hdig c (by simp),
          hdig d (by simp), hdig e (by simp), hdig f (by simp), hdig g (by simp),
          hdig hh (by simp), hdig i (by simp), hdig j (by simp)]
      rw [hfil]
      simp
    · have hne : cleanPhoneValue (jsTrim v) = jsTrim v := by
        simp only [cleanPhoneValue]
        rw [if_neg h10]
      rw [hne, jsTrim_idem, hne]
  · rw [cleanValueForField_first_name, cleanValueForField_first_name,
      properCase_trimmed (jsTrim_idem v), properCase_idem]
  · rw [cleanValueForField_last_name, cleanValueForField_last_name,
      properCase_trimmed (jsTrim_idem v), properCase_idem]

/-- **C4**, witness: the amended theorem applied to a concrete padded
mixed-case ASCII name, discharging the ASCII hypothesis there. -/
theorem c4_amended_witness :
    (∀ c ∈ str " john  SMITH ", c.toNat < 128) ∧
    cleanValueForField (str "first_name")
        (jsTrim (cleanValueForField (str "first_name")
          (jsTrim (str " john  SMITH ")))) =
      cleanValueForField (str "first_name") (jsTrim (str " john  SMITH ")) :=
  ⟨by decide, ((c4_amended (str " john  SMITH ")).2 (by decide)).1⟩

/-! ## Helper lemmas: validation membership -/

theorem mem_enumIdx {l : List α} {i : Nat} {a : α} :
    ∀ n, (i, a) ∈ enumIdx n l ↔ ∃ k, i = n + k ∧ l.get? k = some a := by
  induction l with
  | nil =>
    intro n
    simp [enumIdx]
  | cons x l ih =>
    intro n
    rw [enumIdx, List.mem_cons]
    constructor
    · intro h
      rcases h with h | h
      · refine ⟨0, ?_, ?_⟩
        · simpa using congrArg Prod.fst h
        · simpa [List.get?] using (congrArg Prod.snd h).symm
      · obtain ⟨k, hk, hget⟩ := (ih (n + 1)).mp h
        exact ⟨k + 1, by omega, by simpa [List.get?] using hget⟩
    · rintro ⟨k, hk, hget⟩
      rcases k with _ | k
      · left
        simp only [List.get?] at hget
        injection hget with hget
        simp [hk, hget]
      · right
        refine (ih (n + 1)).mpr ⟨k, by omega, ?_⟩
        simpa [List.get?] using hget

theorem mem_enumIdx_zero {l : List α} {i : Nat} {a : α} :
    (i, a) ∈ enumIdx 0 l ↔ l.get? i = some a := by
  rw [mem_enumIdx 0]
  constructor
  · rintro ⟨k, hk, hget⟩
    simpa [hk] using hget
  · intro h
    exact ⟨i, by omega, h⟩

theorem enumIdx_fst_ge {l : List α} {p : Nat × α} :
    ∀ n, p ∈ enumIdx n l → n ≤ p.1 := by
  induction l with
  | nil => intro n h; simp [enumIdx] at h
  | cons x l ih =>
    intro n h
    rw [enumIdx, List.mem_cons] at h
    rcases h with h | h
    · simp [h]
    · have := ih (n + 1) h
      omega

/-- The fixed error record of the phone-format rule. -/
def phoneFormatError (i : Nat) (col sv : Str) : Issue :=
  { row_index := i, column := col, value := sv,
    rule_type := str "format", severity := str "error",
    message := str "Invalid phone number format" }

/-- The fixed warning record of the incomplete-phone rule. -/
def phoneIncompleteWarning (i : Nat) (col sv : Str) : Issue :=
  { row_index := i, column := col, value := sv,
    rule_type := str "format", severity := str "warning",
    message := str "Phone number seems incomplete" }

theorem mem_cellErrors {i : Nat} {col v : Str} {e : Issue} (h : e ∈ cellErrors i col v) :
    e.row_index = i ∧ e.column = col ∧ e.value = jsTrim v := by
  unfold cellErrors at h
  rcases List.mem_append.mp h with h | h
  · split at h
    · rw [List.mem_singleton] at h
      subst h
      exact ⟨rfl, rfl, rfl⟩
    · exact absurd h (List.not_mem_nil e)
  · split at h
    · rw [List.mem_singleton] at h
      subst h
      exact ⟨rfl, rfl, rfl⟩
    · exact absurd h (List.not_mem_nil e)

theorem mem_cellWarnings {i : Nat} {col v : Str} {e : Issue} (h : e ∈ cellWarnings i col v) :
    e.row_index = i ∧ e.column = col ∧ e.value = jsTrim v := by
  unfold cellWarnings at h
  rcases List.mem_append.mp h with h | h
  · rcases List.mem_append.mp h with h | h
    · split at h
      · rw [List.mem_singleton] at h
        subst h
        exact ⟨rfl, rfl, rfl⟩
      · exact absurd h (List.not_mem_nil e)
    · split at h
      · rw [List.mem_singleton] at h
        subst h
        exact ⟨rfl, rfl, rfl⟩
      · exact absurd h (List.not_mem_nil e)
  · split at h
    · rw [List.mem_singleton] at h
      subst h
      exact ⟨rfl, rfl, rfl⟩
    · exact absurd h (List.not_mem_nil e)

theorem mem_validateErrors {rows : List Row} {e : Issue} :
    e ∈ validateErrors rows ↔
      ∃ i row col v, rows.get? i = some row ∧ (col, v) ∈ row ∧ e ∈ cellErrors i col v := by
  unfold validateErrors
  rw [List.mem_flatMap]
  constructor
  · rintro ⟨⟨i, row⟩, hmem, hcell⟩
    rw [List.mem_flatMap] at hcell
    obtain ⟨⟨col, v⟩, hcv, hiss⟩ := hcell
    exact ⟨i, row, col, v, mem_enumIdx_zero.mp hmem, hcv, hiss⟩
  · rintro ⟨i, row, col, v, hget, hcv, hiss⟩
    exact ⟨(i, row), mem_enumIdx_zero.mpr hget,
      List.mem_flatMap.mpr ⟨(col, v), hcv, hiss⟩⟩

theorem mem_validateWarnings {rows : List Row} {e : Issue} :
    e ∈ validateWarnings rows ↔
      ∃ i row col v, rows.get? i = some row ∧ (col, v) ∈ row ∧ e ∈ cellWarnings i col v := by
  unfold validateWarnings
  rw [List.mem_flatMap]
  constructor
  · rintro ⟨⟨i, row⟩, hmem, hcell⟩
    rw [List.mem_flatMap] at hcell
    obtain ⟨⟨col, v⟩, hcv, hiss⟩ := hcell
    exact ⟨i, row, col, v, mem_enumIdx_zero.mp hmem, hcv, hiss⟩
  · rintro ⟨i, row, col, v, hget, hcv, hiss⟩
    exact ⟨(i, row), mem_enumIdx_zero.mpr hget,
      List.mem_flatMap.mpr ⟨(col, v), hcv, hiss⟩⟩

theorem mem_cellErrors_phone {i : Nat} {col v : Str} {e : Issue}
    (h : e ∈ cellErrors i col v)
    (hmsg : e.message = str "Invalid phone number format") :
    e = phoneFormatError i col (jsTrim v) ∧ phoneCharsOk (jsTrim v) = false := by
  unfold cellErrors at h
  rcases List.mem_append.mp h with h | h
  · split at h
    · rw [List.mem_singleton] at h
      subst h
      have hmsg2 : (str "Invalid email format" : Str) = str "Invalid phone number format" :=
        hmsg
      exact absurd hmsg2 (by decide)
    · exact absurd h (List.not_mem_nil e)
  · split at h
    · rw [List.mem_singleton] at h
      subst h
      rename_i hcond
      simp only [Bool.and_eq_true, Bool.not_eq_true'] at hcond
      exact ⟨rfl, hcond.2⟩
    · exact absurd h (List.not_mem_nil e)

theorem phone_error_mem_cellErrors {i : Nat} {col v : Str}
    (hcol : (colHas col "phone" || colHas col "mobile") = true)
    (hne : (jsTrim v).isEmpty = false) (hbad : phoneCharsOk (jsTrim v) = false) :
    phoneFormatError i col (jsTrim v) ∈ cellErrors i col v := by
  unfold cellErrors
  refine List.mem_append_right _ ?_
  rw [if_pos (by simp [hcol, hne, hbad])]
  exact List.mem_singleton.mpr rfl

/-- The unique value of a key in a row with distinct keys. -/
theorem nodup_keys_value_unique {r : Row} (hnd : (r.map Prod.fst).Nodup)
    {col v w : Str} (hv : (col, v) ∈ r) (hw : (col, w) ∈ r) : v = w := by
  induction r with
  | nil => exact absurd hv (List.not_mem_nil _)
  | cons p r ih =>
    rw [List.map_cons, List.nodup_cons] at hnd
    rw [List.mem_cons] at hv hw
    rcases hv with hv | hv
    · rcases hw with hw | hw
      · rw [← hv] at hw
        injection hw with h1 h2
        exact h2.symm
      · exfalso
        apply hnd.1
        rw [← hv]
        exact List.mem_map.mpr ⟨(col, w), hw, rfl⟩
    · rcases hw with hw | hw
      · exfalso
        apply hnd.1
        rw [← hw]
        exact List.mem_map.mpr ⟨(col, v), hv, rfl⟩
      · exact ih hnd.2 hv hw

/-- The predicate recognising the incomplete-phone warning of a given cell
address. -/
def phoneWarnPred (i : Nat) (col : Str) (w : Issue) : Bool :=
  w.row_index == i && w.column == col && w.message == str "Phone number seems incomplete"

theorem phoneWarnPred_iff {i : Nat} {col : Str} {e : Issue} :
    phoneWarnPred i col e = true ↔
      e.row_index = i ∧ e.column = col ∧
        e.message = str "Phone number seems incomplete" := by
  simp [phoneWarnPred, and_assoc]

theorem countP_cellWarnings_phone {i : Nat} {col v : Str}
    (hcol : (colHas col "phone" || colHas col "mobile") = true)
    (hne : (jsTrim v).isEmpty = false) (hok : phoneCharsOk (jsTrim v) = true)
    (hlt : digitCount (jsTrim v) < 10) :
    (cellWarnings i col v).countP (phoneWarnPred i col) = 1 := by
  simp only [cellWarnings]
  rw [List.countP_append, List.countP_append]
  rw [if_pos (by simp [hcol, hne, hok, hlt])]
  rw [if_neg (by simp [hne])]
  have h1 : List.countP (phoneWarnPred i col)
      [{ row_index := i, column := col, value := jsTrim v,
         rule_type := str "format", severity := str "warning",
         message := str "Phone number seems incomplete" }] = 1 := by
    simp [List.countP_cons, phoneWarnPred]
  rw [h1]
  have hz0 : ∀ (b : Prop) (hb : Decidable b) (iss : Issue),
      iss.message = str "Invalid ZIP code format" →
      List.countP (phoneWarnPred i col) (@ite _ b hb [iss] []) = 0 := by
    intro b hb iss hmsg
    split
    · rw [List.countP_eq_zero]
      intro e he hp
      rw [List.mem_singleton] at he
      subst he
      rw [phoneWarnPred_iff] at hp
      have h2 : (str "Invalid ZIP code format" : Str) = str "Phone number seems incomplete" := by
        rw [← hmsg, hp.2.2]
      exact absurd h2 (by decide)
    · rfl
  rw [hz0 _ _ _ rfl]
  simp

theorem countP_row_flat_zero {i : Nat} {col : Str} (r : Row) (i' : Nat)
    (h : ∀ cell ∈ r, i' ≠ i ∨ cell.1 ≠ col) :
    (r.flatMap (fun cell => cellWarnings i' cell.1 cell.2)).countP
      (phoneWarnPred i col) = 0 := by
  rw [List.countP_eq_zero]
  intro e he hp
  rw [List.mem_flatMap] at he
  obtain ⟨cell, hcell, hiss⟩ := he
  obtain ⟨hri, hci, _⟩ := mem_cellWarnings hiss
  rw [phoneWarnPred_iff] at hp
  rcases h cell hcell with hne | hne
  · exact hne (by rw [← hri, hp.1])
  · exact hne (by rw [← hci, hp.2.1])

theorem countP_row_flat_unique {i : Nat} {col v : Str}
    (hcol : (colHas col "phone" || colHas col "mobile") = true)
    (hne : (jsTrim v).isEmpty = false) (hok : phoneCharsOk (jsTrim v) = true)
    (hlt : digitCount (jsTrim v) < 10) :
    ∀ (r : Row), (r.map Prod.fst).Nodup → (col, v) ∈ r →
    (r.flatMap (fun cell => cellWarnings i cell.1 cell.2)).countP
      (phoneWarnPred i col) = 1 := by
  intro r
  induction r with
  | nil => intro _ hm; exact absurd hm (List.not_mem_nil _)
  | cons p r ih =>
    intro hnd hm
    rw [List.map_cons, List.nodup_cons] at hnd
    rw [List.flatMap_cons, List.countP_append]
    rw [List.mem_cons] at hm
    rcases hm with hm | hm
    · rw [← hm]
      rw [countP_cellWarnings_phone hcol hne hok hlt]
      rw [countP_row_flat_zero r i (fun cell hcell => Or.inr (fun hceq => by
        apply hnd.1
        rw [← hm]
        exact List.mem_map.mpr ⟨cell, hcell, hceq⟩))]
    · have hp1 : p.1 ≠ col := by
        intro he
        apply hnd.1
        rw [he]
        exact List.mem_map.mpr ⟨(col, v), hm, rfl⟩
      have hz : (cellWarnings i p.1 p.2).countP (phoneWarnPred i col) = 0 := by
        rw [List.countP_eq_zero]
        intro e he hp
        obtain ⟨_, hci, _⟩ := mem_cellWarnings he
        rw [phoneWarnPred_iff] at hp
        exact hp1 (by rw [← hci, hp.2.1])
      rw [hz, ih hnd.2 hm]

theorem warn_count_aux {col v : Str}
    (hcol : (colHas col "phone" || colHas col "mobile") = true)
    (hne : (jsTrim v).isEmpty = false) (hok : phoneCharsOk (jsTrim v) = true)
    (hlt : digitCount (jsTrim v) < 10) :
    ∀ (rows : List Row) (n k : Nat) (row : Row),
      rows.get? k = some row → (row.map Prod.fst).Nodup → (col, v) ∈ row →
      ((enumIdx n rows).flatMap
          (fun p => p.2.flatMap (fun cell => cellWarnings p.1 cell.1 cell.2))).countP
        (phoneWarnPred (n + k) col) = 1 := by
  intro rows
  induction rows with
  | nil =>
    intro n k row hget
    simp [List.get?] at hget
  | cons r0 rest ih =>
    intro n k row hget hnd hm
    rw [enumIdx, List.flatMap_cons, List.countP_append]
    rcases k with _ | k
    · simp only [List.get?] at hget
      injection hget with hget
      subst hget
      rw [show n + 0 = n from rfl]
      rw [countP_row_flat_unique hcol hne hok hlt _ hnd hm]
      have hz : ((enumIdx (n + 1) rest).flatMap
          (fun p => p.2.flatMap (fun cell => cellWarnings p.1 cell.1 cell.2))).countP
            (phoneWarnPred n col) = 0 := by
        rw [List.countP_eq_zero]
        intro e he hp
        rw [List.mem_flatMap] at he
        obtain ⟨q, hqmem, hrow⟩ := he
        rw [List.mem_flatMap] at hrow
        obtain ⟨cell, _, hiss⟩ := hrow
        have h1 := (mem_cellWarnings hiss).1
        have h2 := enumIdx_fst_ge (n + 1) hqmem
        rw [phoneWarnPred_iff] at hp
        omega
      rw [hz]
    · have hz : (r0.flatMap (fun cell => cellWarnings n cell.1 cell.2)).countP
          (phoneWarnPred (n + (k + 1)) col) = 0 := by
        rw [List.countP_eq_zero]
        intro e he hp
        rw [List.mem_flatMap] at he
        obtain ⟨cell, _, hiss⟩ := he
        have h1 := (mem_cellWarnings hiss).1
        rw [phoneWarnPred_iff] at hp
        omega
      rw [hz]
      have hrec := ih (n + 1) k row (by simpa [List.get?] using hget) hnd hm
      rw [show n + (k + 1) = (n + 1) + k from by omega, hrec]

/-- **C6**, counterexample.  The claim fails for values that are non-empty
but whitespace-only: the single space value in a phone column is non-empty,
contains only allowed characters and has fewer than ten digits, so the claim
demands the incomplete-phone warning, yet the code trims the value first and
its truthiness guard (strValue is the empty string, which is falsy) skips
every phone check, emitting no warning and no error. -/
theorem c6_counterexample :
    str " " ≠ [] ∧
    phoneCharsOk (str " ") = true ∧
    digitCount (str " ") < 10 ∧
    (validateRows (str "j") [[(str "phone", str " ")]]).warnings = [] ∧
    (validateRows (str "j") [[(str "phone", str " ")]]).errors = [] := by
  decide

/-- **C6**, amended.  For every value in a phone or mobile column whose
**trimmed** form is non-empty (the code trims first and skips the checks
entirely when the trimmed value is empty): the error "Invalid phone number
format" is emitted exactly when the trimmed value contains a character
outside digits, whitespace, hyphen, plus and parentheses; if the character
check passes and the digit count is below 10, exactly one warning "Phone
number seems incomplete" is emitted for that cell and no phone-format
error; in particular the single row `{phone: "123"}` yields no error and
only that warning. -/
theorem c6_amended :
    (∀ (jobId : Str) (rows : List Row) (i : Nat) (row : Row) (col v : Str),
      rows.get? i = some row → (col, v) ∈ row →
      (colHas col "phone" || colHas col "mobile") = true → jsTrim v ≠ [] →
      (phoneFormatError i col (jsTrim v) ∈ (validateRows jobId rows).errors ↔
        phoneCharsOk (jsTrim v) = false)) ∧
    (∀ (jobId : Str) (rows : List Row) (i : Nat) (row : Row) (col v : Str),
      rows.get? i = some row → (row.map Prod.fst).Nodup → (col, v) ∈ row →
      (colHas col "phone" || colHas col "mobile") = true → jsTrim v ≠ [] →
      phoneCharsOk (jsTrim v) = true → digitCount (jsTrim v) < 10 →
      ((validateRows jobId rows).warnings.countP (phoneWarnPred i col) = 1 ∧
        ∀ e ∈ (validateRows jobId rows).errors,
          ¬ (e.row_index = i ∧ e.column = col ∧
              e.message = str "Invalid phone number format"))) ∧
    (validateRows (str "j") [[(str "phone", str "123")]]).errors = [] ∧
    (validateRows (str "j") [[(str "phone", str "123")]]).warnings =
      [{ row_index := 0, column := str "phone", value := str "123",
         rule_type := str "format", severity := str "warning",
         message := str "Phone number seems incomplete" }] := by
  refine ⟨?_, ?_, by decide, by decide⟩
  · intro jobId rows i row col v hget hmem hcolc hnev
    have herr : (validateRows jobId rows).errors = validateErrors rows := rfl
    rw [herr]
    constructor
    · intro hin
      rw [mem_validateErrors] at hin
      obtain ⟨i', row', col', v', hget', hmem', hiss⟩ := hin
      obtain ⟨hri, hci, hvi⟩ := mem_cellErrors hiss
      obtain ⟨_, hbad⟩ := mem_cellErrors_phone hiss rfl
      have hvv : jsTrim v = jsTrim v' := hvi
      rw [hvv]
      exact hbad
    · intro hbad
      rw [mem_validateErrors]
      refine ⟨i, row, col, v, hget, hmem, ?_⟩
      refine phone_error_mem_cellErrors hcolc ?_ hbad
      cases hj : jsTrim v
      · exact absurd hj hnev
      · rfl
  · intro jobId rows i row col v hget hnd hmem hcolc hnev hok hlt
    have hne' : (jsTrim v).isEmpty = false := by
      cases hj : jsTrim v
      · exact absurd hj hnev
      · rfl
    constructor
    · have hwarn : (validateRows jobId rows).warnings = validateWarnings rows := rfl
      rw [hwarn]
      unfold validateWarnings
      have := warn_count_aux hcolc hne' hok hlt rows 0 i row hget hnd hmem
      simpa using this
    · intro e he hprop
      have herr : (validateRows jobId rows).errors = validateErrors rows := rfl
      rw [herr, mem_validateErrors] at he
      obtain ⟨i', row', col', v', hget', hmem', hiss⟩ := he
      obtain ⟨hri, hci, hvi⟩ := mem_cellErrors hiss
      obtain ⟨_, hbad⟩ := mem_cellErrors_phone hiss hprop.2.2
      have hii : i' = i := by rw [← hri, hprop.1]
      have hcc : col' = col := by rw [← hci, hprop.2.1]
      subst hii
      subst hcc
      rw [hget'] at hget
      injection hget with hget
      subst hget
      have hveq : v' = v := nodup_keys_value_unique hnd hmem' hmem
      rw [hveq] at hbad
      rw [hbad] at hok
      exact Bool.false_ne_true hok

/-- **C7**, counterexample.  Issues do not carry the literal cell value: the
value is trimmed before validation, so the error recorded for the cell
`email: " bad "` carries `"bad"`, not `" bad "`. -/
theorem c7_counterexample :
    (validateRows (str "j") [[(str "email", str " bad ")]]).errors.map Issue.value =
      [str "bad"] ∧ str "bad" ≠ str " bad " := by
  decide

/-- **C7**, amended.  Every issue produced by the validation loop addresses a
real cell of the validated row set: its row index is in range, its column is
a key of that row, and its value is the **trimmed** string value of that
cell at time of validation. -/
theorem c7_amended (jobId : Str) (rows : List Row) (e : Issue)
    (h : e ∈ (validateRows jobId rows).errors ∨ e ∈ (validateRows jobId rows).warnings) :
    e.row_index < rows.length ∧
    ∃ row v, rows.get? e.row_index = some row ∧ (e.column, v) ∈ row ∧
      e.value = jsTrim v := by
  have hfields : ∃ i row col v, rows.get? i = some row ∧ (col, v) ∈ row ∧
      e.row_index = i ∧ e.column = col ∧ e.value = jsTrim v := by
    rcases h with h | h
    · rw [show (validateRows jobId rows).errors = validateErrors rows from rfl,
        mem_validateErrors] at h
      obtain ⟨i, row, col, v, hget, hmem, hiss⟩ := h
      obtain ⟨h1, h2, h3⟩ := mem_cellErrors hiss
      exact ⟨i, row, col, v, hget, hmem, h1, h2, h3⟩
    · rw [show (validateRows jobId rows).warnings = validateWarnings rows from rfl,
        mem_validateWarnings] at h
      obtain ⟨i, row, col, v, hget, hmem, hiss⟩ := h
      obtain ⟨h1, h2, h3⟩ := mem_cellWarnings hiss
      exact ⟨i, row, col, v, hget, hmem, h1, h2, h3⟩
  obtain ⟨i, row, col, v, hget, hmem, h1, h2, h3⟩ := hfields
  subst h1
  subst h2
  refine ⟨?_, row, v, hget, hmem, h3⟩
  exact (List.get?_eq_some.mp hget).1

/-- **C7**, witness: the amended theorem applied to the single error of a
concrete validation run. -/
theorem c7_amended_witness :
    (phoneFormatError 0 (str "phone") (str "12a")).row_index <
        ([[(str "phone", str "12a")]] : List Row).length ∧
    ∃ row v, ([[(str "phone", str "12a")]] : List Row).get?
        (phoneFormatError 0 (str "phone") (str "12a")).row_index = some row ∧
      ((phoneFormatError 0 (str "phone") (str "12a")).column, v) ∈ row ∧
      (phoneFormatError 0 (str "phone") (str "12a")).value = jsTrim v :=
  c7_amended (str "j") [[(str "phone", str "12a")]]
    (phoneFormatError 0 (str "phone") (str "12a")) (Or.inl (by decide))

/-- **C6**, witness: the general parts of the amended phone-validation
theorem applied at the row `{phone: "123"}`. -/
theorem c6_amended_witness :
    (phoneFormatError 0 (str "phone") (jsTrim (str "123")) ∈
        (validateRows (str "j") [[(str "phone", str "123")]]).errors ↔
      phoneCharsOk (jsTrim (str "123")) = false) ∧
    (validateRows (str "j") [[(str "phone", str "123")]]).warnings.countP
      (phoneWarnPred 0 (str "phone")) = 1 :=
  ⟨c6_amended.1 (str "j") [[(str "phone", str "123")]] 0
      [(str "phone", str "123")] (str "phone") (str "123")
      (by decide) (by decide) (by decide) (by decide),
    (c6_amended.2.1 (str "j") [[(str "phone", str "123")]] 0
      [(str "phone", str "123")] (str "phone") (str "123")
      (by decide) (by decide) (by decide) (by decide) (by decide)
      (by decide) (by decide)).1⟩

/-! ## Helper lemmas: the CSV field machine -/

theorem aux_nil (b : Bool) (cur : Str) : parseCSVLineAux b cur [] = [jsTrim cur] := rfl

theorem aux_quote2_true (cur rest2 : Str) :
    parseCSVLineAux true cur ('"' :: '"' :: rest2) =
      parseCSVLineAux true (cur ++ ['"']) rest2 := rfl

theorem aux_quote2_false (cur rest2 : Str) :
    parseCSVLineAux false cur ('"' :: '"' :: rest2) =
      parseCSVLineAux true cur ('"' :: rest2) := rfl

theorem aux_quote1 (b : Bool) (cur rest : Str)
    (h : ∀ rest2, b = true → rest ≠ '"' :: rest2) :
    parseCSVLineAux b cur ('"' :: rest) = parseCSVLineAux (!b) cur rest := by
  rw [parseCSVLineAux.eq_3 b cur '"' rest (fun r2 hb he => h r2 hb he)]
  rw [if_pos rfl]

theorem aux_comma_true (cur rest : Str) :
    parseCSVLineAux true cur (',' :: rest) = parseCSVLineAux true (cur ++ [',']) rest := by
  by_cases hq : ∃ rest2, rest = '"' :: rest2
  · obtain ⟨rest2, rfl⟩ := hq
    rw [parseCSVLineAux.eq_2]
    rw [if_neg (by decide), if_pos rfl, if_pos rfl]
  · rw [parseCSVLineAux.eq_3 true cur ',' rest (fun r2 _ he => hq ⟨r2, he⟩)]
    rw [if_neg (by decide), if_pos rfl, if_pos rfl]

theorem aux_comma_false (cur rest : Str) :
    parseCSVLineAux false cur (',' :: rest) =
      jsTrim cur :: parseCSVLineAux false [] rest := by
  rw [parseCSVLineAux.eq_3 false cur ',' rest (fun _ hb _ => by cases hb)]
  rw [if_neg (by decide), if_pos rfl, if_neg (by simp)]

theorem aux_other (b : Bool) (cur : Str) (c : Char) (rest : Str)
    (h1 : c ≠ '"') (h2 : c ≠ ',') :
    parseCSVLineAux b cur (c :: rest) = parseCSVLineAux b (cur ++ [c]) rest := by
  by_cases hq : b = true ∧ ∃ rest2, rest = '"' :: rest2
  · obtain ⟨hb, rest2, rfl⟩ := hq
    subst hb
    rw [parseCSVLineAux.eq_2]
    rw [if_neg h1, if_neg h2]
  · rw [parseCSVLineAux.eq_3 b cur c rest (fun r2 hb he => hq ⟨hb, r2, he⟩)]
    rw [if_neg h1, if_neg h2]

theorem mem_parseCSVLineAux (b : Bool) (cur l : Str) :
    ∀ f ∈ parseCSVLineAux b cur l, ∃ x, f = jsTrim x := by
  induction b, cur, l using parseCSVLineAux.induct with
  | case1 b cur =>
    intro f hf
    rw [aux_nil, List.mem_singleton] at hf
    exact ⟨cur, hf⟩
  | case2 cur rest2 ih =>
    intro f hf
    rw [aux_quote2_true] at hf
    exact ih f hf
  | case3 cur iq r hside ih =>
    intro f hf
    rw [aux_quote1 iq cur r (fun rest2 hiq he => hside rest2 hiq he)] at hf
    exact ih f hf
  | case4 cur rest _ ih =>
    intro f hf
    rw [aux_comma_true] at hf
    exact ih f hf
  | case5 b cur rest hb _ ih =>
    intro f hf
    have hb' : b = false := by
      cases b
      · rfl
      · exact absurd rfl hb
    subst hb'
    rw [aux_comma_false, List.mem_cons] at hf
    rcases hf with hf | hf
    · exact ⟨cur, hf⟩
    · exact ih f hf
  | case6 b cur c rest h1 h2 ih =>
    intro f hf
    rw [aux_other b cur c rest h1 h2] at hf
    exact ih f hf

theorem mem_parseCSVLine_trimmed {line : Str} {f : Str} (h : f ∈ parseCSVLine line) :
    jsTrim f = f := by
  obtain ⟨x, hx⟩ := mem_parseCSVLineAux false [] line f h
  rw [hx, jsTrim_idem]

/-- Values of a built row are drawn from the value list. -/
theorem mem_buildRow_snd {headers values : List Str} {p : Str × Str}
    (h : p ∈ buildRow headers values) : p.2 ∈ values := by
  have hgen : ∀ (l : List (Str × Str)) (acc : Row),
      (∀ q ∈ acc, q.2 ∈ values) → (∀ q ∈ l, q.2 ∈ values) →
      ∀ p ∈ l.foldl (fun r q => objInsert r q.1 q.2) acc, p.2 ∈ values := by
    intro l
    induction l with
    | nil => intro acc hacc _ p hp; exact hacc p hp
    | cons q l ih =>
      intro acc hacc hl p hp
      rw [List.foldl_cons] at hp
      refine ih (objInsert acc q.1 q.2) ?_ (fun r hr => hl r (List.mem_cons_of_mem q hr)) p hp
      intro x hx
      unfold objInsert at hx
      split at hx
      · obtain ⟨y, hy, hxe⟩ := List.mem_map.mp hx
        by_cases hyk : y.1 = q.1
        · rw [if_pos hyk] at hxe
          rw [← hxe]
          exact hl q (List.mem_cons_self q l)
        · rw [if_neg hyk] at hxe
          rw [← hxe]
          exact hacc y hy
      · rcases List.mem_append.mp hx with hx | hx
        · exact hacc x hx
        · rw [List.mem_singleton] at hx
          rw [hx]
          exact hl q (List.mem_cons_self q l)
  refine hgen (headers.zip values) [] (by simp) ?_ p h
  intro q hq
  exact (List.of_mem_zip hq).2

/-- **C10**.  Every header and every row value returned by `parseCSV` is
already trimmed (each parsed field is trimmed before being stored), so
decoding is not value-preserving for fields whose source text carries
surrounding whitespace: the concrete text `"a,b\n x ,y"` parses the field
`" x "` to `"x"`. -/
theorem c10_parse_fields_trimmed :
    (∀ text : Str,
      (∀ h ∈ (parseCSV text).headers, jsTrim h = h) ∧
      (∀ row ∈ (parseCSV text).data, ∀ p ∈ row, jsTrim p.2 = p.2)) ∧
    (parseCSV (str "a,b\n x ,y")).data =
      [[(str "a", str "x"), (str "b", str "y")]] ∧ str "x" ≠ str " x " := by
  refine ⟨?_, by decide, by decide⟩
  intro text
  constructor
  · intro h hh
    exact mem_parseCSVLine_trimmed hh
  · intro row hrow p hp
    simp only [parseCSV] at hrow
    rw [List.mem_filterMap] at hrow
    obtain ⟨l, hl, hsome⟩ := hrow
    split at hsome
    · injection hsome with hsome
      subst hsome
      exact mem_parseCSVLine_trimmed (mem_buildRow_snd hp)
    · cases hsome

/-- **C10**, witness at a concrete text with padded fields. -/
theorem c10_parse_fields_trimmed_witness :
    jsTrim (str "x") = str "x" :=
  (c10_parse_fields_trimmed.1 (str "a,b\n x ,y")).2
    [(str "a", str "x"), (str "b", str "y")] (by decide)
    (str "a", str "x") (by decide)

/-! ## Helper lemmas: line splitting and CSV escaping -/

theorem splitLines_ne_nil : ∀ l : Str, splitLines l ≠ [] := by
  intro l
  rw [splitLines.eq_def]
  split
  · simp
  · simp
  · simp
  · split <;> simp

theorem splitLines_cons {c : Char} (h1 : c ≠ '\n') (h2 : c ≠ '\r') (cs : Str)
    {l : Str} {ls : List Str} (hs : splitLines cs = l :: ls) :
    splitLines (c :: cs) = (c :: l) :: ls := by
  rw [splitLines.eq_4 c cs (fun _ hc _ => h2 hc) (fun hc => h1 hc), hs]

theorem splitLines_single {line : Str} (h1 : '\n' ∉ line) (h2 : '\r' ∉ line) :
    splitLines line = [line] := by
  induction line with
  | nil => rfl
  | cons c cs ih =>
    have hc1 : c ≠ '\n' := fun he => h1 (by simp [he])
    have hc2 : c ≠ '\r' := fun he => h2 (by simp [he])
    exact splitLines_cons hc1 hc2 cs
      (ih (fun hm => h1 (List.mem_cons_of_mem c hm))
          (fun hm => h2 (List.mem_cons_of_mem c hm)))

theorem splitLines_append {line : Str} (h1 : '\n' ∉ line) (h2 : '\r' ∉ line) (rest : Str) :
    splitLines (line ++ '\n' :: rest) = line :: splitLines rest := by
  induction line with
  | nil => simp [splitLines.eq_3]
  | cons c cs ih =>
    have hc1 : c ≠ '\n' := fun he => h1 (by simp [he])
    have hc2 : c ≠ '\r' := fun he => h2 (by simp [he])
    have hrec := ih (fun hm => h1 (List.mem_cons_of_mem c hm))
      (fun hm => h2 (List.mem_cons_of_mem c hm))
    rw [List.cons_append]
    exact splitLines_cons hc1 hc2 _ hrec

theorem splitLines_joinSep :
    ∀ (ls : List Str), ls ≠ [] → (∀ l ∈ ls, '\n' ∉ l ∧ '\r' ∉ l) →
      splitLines (joinSep ['\n'] ls) = ls := by
  intro ls
  induction ls with
  | nil => intro h; exact absurd rfl h
  | cons l ls ih =>
    intro _ hall
    rcases ls with _ | ⟨y, ys⟩
    · exact splitLines_single (hall l (by simp)).1 (hall l (by simp)).2
    · rw [joinSep_cons_cons, List.append_assoc, List.singleton_append,
        splitLines_append (hall l (by simp)).1 (hall l (by simp)).2,
        ih (by simp) (fun v hv => hall v (List.mem_cons_of_mem l hv))]

theorem mem_joinSep {c : Char} {sep : Str} :
    ∀ ls : List Str, c ∈ joinSep sep ls → c ∈ sep ∨ ∃ l ∈ ls, c ∈ l := by
  intro ls
  induction ls with
  | nil => intro h; exact absurd h (List.not_mem_nil c)
  | cons l ls ih =>
    intro h
    rcases ls with _ | ⟨y, ys⟩
    · exact Or.inr ⟨l, by simp, h⟩
    · rw [joinSep_cons_cons, List.append_assoc] at h
      rcases List.mem_append.mp h with h | h
      · exact Or.inr ⟨l, by simp, h⟩
      · rcases List.mem_append.mp h with h | h
        · exact Or.inl h
        · rcases ih h with h | ⟨x, hx, hm⟩
          · exact Or.inl h
          · exact Or.inr ⟨x, List.mem_cons_of_mem l hx, hm⟩

/-- The quote-doubling applied inside `escapeCsvValue`. -/
theorem mem_escape_flatMap {c : Char} {v : Str}
    (h : c ∈ v.flatMap (fun x => if x = '"' then ['"', '"'] else [x])) :
    c = '"' ∨ c ∈ v := by
  rw [List.mem_flatMap] at h
  obtain ⟨x, hx, hm⟩ := h
  by_cases hq : x = '"'
  · rw [if_pos hq] at hm
    simp at hm
    exact Or.inl hm
  · rw [if_neg hq] at hm
    rw [List.mem_singleton] at hm
    exact Or.inr (hm ▸ hx)

theorem mem_escapeCsvValue {c : Char} {v : Str} (h : c ∈ escapeCsvValue v) :
    c = '"' ∨ c ∈ v := by
  unfold escapeCsvValue at h
  split at h
  · rw [List.cons_append, List.mem_cons] at h
    rcases h with h | h
    · exact Or.inl h
    · rcases List.mem_append.mp h with h | h
      · exact mem_escape_flatMap h
      · rw [List.mem_singleton] at h
        exact Or.inl h
  · exact Or.inr h

theorem escapeCsvValue_eq_self {v : Str} (h1 : ',' ∉ v) (h2 : '"' ∉ v) :
    escapeCsvValue v = v := by
  unfold escapeCsvValue
  rw [if_neg (fun hc => hc.elim h1 h2)]

theorem escapeCsvValue_eq_nil {v : Str} (h : escapeCsvValue v = []) : v = [] := by
  revert h
  unfold escapeCsvValue
  split
  · intro h
    cases h
  · exact id

theorem escapeCsvValue_end {v : Str} (hv : jsTrim v = v) :
    escapeCsvValue v = [] ∨ ∃ q d, escapeCsvValue v = q ++ [d] ∧ ¬ jsSpace d := by
  unfold escapeCsvValue
  split
  · right
    exact ⟨'"' :: v.flatMap (fun c => if c = '"' then ['"', '"'] else [c]), '"',
      by rw [List.cons_append], by decide⟩
  · rcases List.eq_nil_or_concat v with hnil | ⟨m, d, hend⟩
    · exact Or.inl hnil
    · rw [List.concat_eq_append] at hend
      right
      refine ⟨m, d, hend, ?_⟩
      rw [hend] at hv
      exact not_space_last_of_trimmed hv

theorem joinSep_comma_end :
    ∀ (es : List Str), es ≠ [] →
      (∀ x ∈ es, x = [] ∨ ∃ q d, x = q ++ [d] ∧ ¬ jsSpace d) →
      (joinSep [','] es = [] ∧ es = [[]]) ∨
        (∃ q d, joinSep [','] es = q ++ [d] ∧ ¬ jsSpace d) := by
  intro es
  induction es with
  | nil => intro h; exact absurd rfl h
  | cons x es ih =>
    intro _ hall
    rcases es with _ | ⟨y, ys⟩
    · rcases hall x (by simp) with hx | ⟨q, d, hqd, hd⟩
      · exact Or.inl ⟨by rw [joinSep_single, hx], by rw [hx]⟩
      · exact Or.inr ⟨q, d, by rw [joinSep_single, hqd], hd⟩
    · rcases ih (by simp) (fun z hz => hall z (List.mem_cons_of_mem x hz)) with
        ⟨hj, _⟩ | ⟨q, d, hqd, hd⟩
      · refine Or.inr ⟨x, ',', ?_, by decide⟩
        rw [joinSep_cons_cons, hj, List.append_nil]
      · refine Or.inr ⟨x ++ [','] ++ q, d, ?_, hd⟩
        rw [joinSep_cons_cons, hqd]
        simp [List.append_assoc]

/-! ## Helper lemmas: the field machine inverts the escaper -/

theorem aux_pass :
    ∀ (v : Str), (∀ c ∈ v, c ≠ '"' ∧ c ≠ ',') →
      ∀ (cur l : Str),
        parseCSVLineAux false cur (v ++ l) = parseCSVLineAux false (cur ++ v) l := by
  intro v
  induction v with
  | nil =>
    intro _ cur l
    simp
  | cons c cs ih =>
    intro hv cur l
    have hc := hv c (List.mem_cons_self c cs)
    rw [List.cons_append, aux_other false cur c _ hc.1 hc.2]
    rw [ih (fun x hx => hv x (List.mem_cons_of_mem c hx)) (cur ++ [c]) l]
    rw [List.append_assoc]
    rfl

theorem aux_quoted :
    ∀ (v cur l : Str),
      parseCSVLineAux true cur
          ((v.flatMap (fun x => if x = '"' then ['"', '"'] else [x])) ++ l) =
        parseCSVLineAux true (cur ++ v) l := by
  intro v
  induction v with
  | nil =>
    intro cur l
    simp
  | cons c cs ih =>
    intro cur l
    by_cases hq : c = '"'
    · subst hq
      rw [show ('"' :: cs).flatMap (fun x => if x = '"' then ['"', '"'] else [x]) =
          '"' :: '"' :: cs.flatMap (fun x => if x = '"' then ['"', '"'] else [x]) from rfl]
      rw [List.cons_append, List.cons_append, aux_quote2_true, ih (cur ++ ['"']) l]
      rw [List.append_assoc]
      rfl
    · have hfm : (c :: cs).flatMap (fun x => if x = '"' then ['"', '"'] else [x]) =
          c :: cs.flatMap (fun x => if x = '"' then ['"', '"'] else [x]) := by
        simp [List.flatMap_cons, hq]
      by_cases hcm : c = ','
      · subst hcm
        rw [hfm, List.cons_append, aux_comma_true, ih (cur ++ [',']) l]
        rw [List.append_assoc]
        rfl
      · rw [hfm, List.cons_append, aux_other true cur c _ hq hcm, ih (cur ++ [c]) l]
        rw [List.append_assoc]
        rfl

theorem aux_field_nil (v : Str) (hv : jsTrim v = v) :
    parseCSVLineAux false [] (escapeCsvValue v) = [v] := by
  unfold escapeCsvValue
  split
  · rw [List.cons_append]
    rw [aux_quote1 false [] _ (fun _ hb _ => by cases hb)]
    rw [show (!false) = true from rfl]
    rw [aux_quoted v [] ['"']]
    rw [List.nil_append]
    rw [aux_quote1 true v [] (fun r2 _ he => by cases he)]
    rw [show (!true) = false from rfl, aux_nil, hv]
  · rename_i hcond
    have hno : ∀ c ∈ v, c ≠ '"' ∧ c ≠ ',' := by
      intro c hc
      constructor
      · intro he
        exact hcond (Or.inr (he ▸ hc))
      · intro he
        exact hcond (Or.inl (he ▸ hc))
    have h2 := aux_pass v hno [] []
    rw [List.append_nil, List.nil_append] at h2
    rw [h2, aux_nil, hv]

theorem aux_field_cons (v : Str) (hv : jsTrim v = v) (l : Str) :
    parseCSVLineAux false [] (escapeCsvValue v ++ ',' :: l) =
      v :: parseCSVLineAux false [] l := by
  unfold escapeCsvValue
  split
  · simp only [List.cons_append, List.append_assoc, List.singleton_append, List.nil_append]
    rw [aux_quote1 false [] _ (fun _ hb _ => by cases hb)]
    rw [show (!false) = true from rfl]
    rw [aux_quoted v [] ('"' :: ',' :: l)]
    rw [List.nil_append]
    rw [aux_quote1 true v (',' :: l) (fun r2 _ he => by simp at he)]
    rw [show (!true) = false from rfl, aux_comma_false, hv]
  · rename_i hcond
    have hno : ∀ c ∈ v, c ≠ '"' ∧ c ≠ ',' := by
      intro c hc
      constructor
      · intro he
        exact hcond (Or.inr (he ▸ hc))
      · intro he
        exact hcond (Or.inl (he ▸ hc))
    rw [aux_pass v hno [] (',' :: l), List.nil_append, aux_comma_false, hv]

theorem parse_escaped_joinSep :
    ∀ (vs : List Str), vs ≠ [] → (∀ v ∈ vs, jsTrim v = v) →
      parseCSVLine (joinSep [','] (vs.map escapeCsvValue)) = vs := by
  intro vs
  induction vs with
  | nil => intro h; exact absurd rfl h
  | cons v vs ih =>
    intro _ hall
    unfold parseCSVLine
    rcases vs with _ | ⟨y, ys⟩
    · rw [List.map_singleton, joinSep_single]
      exact aux_field_nil v (hall v (by simp))
    · rw [List.map_cons, List.map_cons, joinSep_cons_cons, List.append_assoc,
        List.singleton_append]
      rw [aux_field_cons v (hall v (by simp))]
      have := ih (by simp) (fun x hx => hall x (List.mem_cons_of_mem v hx))
      unfold parseCSVLine at this
      rw [List.map_cons] at this
      rw [this]

theorem parse_clean_joinSep (vs : List Str) (hne : vs ≠ [])
    (hclean : ∀ v ∈ vs, jsTrim v = v ∧ ',' ∉ v ∧ '"' ∉ v) :
    parseCSVLine (joinSep [','] vs) = vs := by
  have hmap : ∀ (l : List Str), (∀ v ∈ l, escapeCsvValue v = v) →
      l.map escapeCsvValue = l := by
    intro l
    induction l with
    | nil => intro _; rfl
    | cons a l ih =>
      intro h
      rw [List.map_cons, h a (by simp), ih (fun x hx => h x (List.mem_cons_of_mem a hx))]
  calc parseCSVLine (joinSep [','] vs)
      = parseCSVLine (joinSep [','] (vs.map escapeCsvValue)) := by
        rw [hmap vs (fun v hv => escapeCsvValue_eq_self (hclean v hv).2.1 (hclean v hv).2.2)]
    _ = vs := parse_escaped_joinSep vs hne (fun v hv => (hclean v hv).1)

/-! ## Helper lemmas: row reconstruction -/

theorem objGetD_mem {r : Row} {h : Str} (hm : h ∈ r.map Prod.fst) (d : Str) :
    ∃ p ∈ r, objGetD r h d = p.2 := by
  induction r with
  | nil => simp at hm
  | cons q r ih =>
    by_cases hq : q.1 = h
    · refine ⟨q, List.mem_cons_self q r, ?_⟩
      unfold objGetD
      rw [List.find?_cons_of_pos _ (by simp [hq])]
    · rw [List.map_cons, List.mem_cons] at hm
      rcases hm with hm | hm
      · exact absurd hm.symm hq
      · obtain ⟨p, hp, hval⟩ := ih hm
        refine ⟨p, List.mem_cons_of_mem q hp, ?_⟩
        unfold objGetD at hval ⊢
        rw [List.find?_cons_of_neg _ (by simp [hq])]
        exact hval

theorem buildRow_eq {headers vs : List Str} (hnd : headers.Nodup)
    (hlen : headers.length ≤ vs.length) :
    buildRow headers vs = headers.zip vs := by
  have hgen : ∀ (l : List (Str × Str)) (acc : Row),
      (l.map Prod.fst).Nodup →
      (∀ k ∈ l.map Prod.fst, k ∉ acc.map Prod.fst) →
      l.foldl (fun r q => objInsert r q.1 q.2) acc = acc ++ l := by
    intro l
    induction l with
    | nil => intro acc _ _; simp
    | cons q l ih =>
      intro acc hl hdisj
      rw [List.foldl_cons]
      have hq : q.1 ∉ acc.map Prod.fst := hdisj q.1 (by simp)
      have hins : objInsert acc q.1 q.2 = acc ++ [q] := by
        unfold objInsert
        rw [if_neg hq]
      rw [hins]
      rw [List.map_cons, List.nodup_cons] at hl
      rw [ih (acc ++ [q]) hl.2 ?_]
      · rw [List.append_assoc]
        rfl
      · intro k hk
        rw [List.map_append, List.mem_append]
        rintro (hka | hka)
        · exact hdisj k (by simp [hk]) hka
        · simp only [List.map_cons, List.map_nil, List.mem_singleton] at hka
          exact hl.1 (hka ▸ hk)
  unfold buildRow
  rw [hgen (headers.zip vs) [] ?_ (by simp)]
  · rfl
  · rw [List.map_fst_zip headers vs hlen]
    exact hnd

theorem getD_keys_eq {r : Row} (hnd : (r.map Prod.fst).Nodup) :
    (r.map Prod.fst).map (fun h => objGetD r h []) = r.map Prod.snd := by
  induction r with
  | nil => rfl
  | cons p r ih =>
    rw [List.map_cons, List.map_cons, List.map_cons]
    rw [List.map_cons, List.nodup_cons] at hnd
    congr 1
    · unfold objGetD
      rw [List.find?_cons_of_pos _ (by simp)]
    · rw [show ((r.map Prod.fst).map fun h => objGetD (p :: r) h []) =
          (r.map Prod.fst).map (fun h => objGetD r h []) from ?_, ih hnd.2]
      refine List.map_congr_left ?_
      intro h hm
      have hph : p.1 ≠ h := fun he => hnd.1 (he ▸ hm)
      unfold objGetD
      rw [List.find?_cons_of_neg _ (by simp [hph])]

theorem zip_keys_values (r : Row) :
    (r.map Prod.fst).zip (r.map Prod.snd) = r := by
  induction r with
  | nil => rfl
  | cons p r ih =>
    rw [List.map_cons, List.map_cons, List.zip_cons_cons, ih]

theorem filterMap_encode_rows {F : Str → Option Row} {g : Row → Str} :
    ∀ (rs : List Row), (∀ r ∈ rs, F (g r) = some r) → (rs.map g).filterMap F = rs := by
  intro rs
  induction rs with
  | nil => intro _; rfl
  | cons r rs ih =>
    intro h
    rw [List.map_cons, List.filterMap_cons, h r (by simp),
      ih (fun x hx => h x (List.mem_cons_of_mem r hx))]

/-- **C9**, counterexample.  The CSV round-trip fails on values with
surrounding whitespace: `parseCSVLine` trims every field, so the encoded
value `" x "` decodes to `"x"`. -/
theorem c9_counterexample :
    (parseCSV (encodeCsv [str "a"] [[(str "a", str " x ")]])).data ≠
      [[(str "a", str " x ")]] ∧
    (parseCSV (encodeCsv [str "a"] [[(str "a", str " x ")]])).data =
      [[(str "a", str "x")]] := by
  decide

/-- **C9**, amended.  `decode(encode(rows, csv)) == rows` holds for every
non-empty row set over one non-empty header set, provided (as the trimming
and quoting behaviour of the codec forces): headers are non-empty, distinct,
free of commas, quotes, newlines and carriage returns, and equal to their
own trim; every value is free of newlines and carriage returns and equal to
its own trim; and, when there is a single column, the last row's value is
non-empty (otherwise the final trim of the text swallows the last line). -/
theorem c9_amended (headers : List Str) (rows : List Row)
    (hh : headers ≠ []) (hrows : rows ≠ [])
    (hhead : ∀ h ∈ headers,
      h ≠ [] ∧ jsTrim h = h ∧ ',' ∉ h ∧ '"' ∉ h ∧ '\n' ∉ h ∧ '\r' ∉ h)
    (hnd : headers.Nodup)
    (hkeys : ∀ r ∈ rows, r.map Prod.fst = headers)
    (hvals : ∀ r ∈ rows, ∀ p ∈ r, jsTrim p.2 = p.2 ∧ '\n' ∉ p.2 ∧ '\r' ∉ p.2)
    (hlast : headers.length = 1 → ∀ r, rows.getLast? = some r → ∀ p ∈ r, p.2 ≠ []) :
    (parseCSV (encodeCsv headers rows)).headers = headers ∧
    (parseCSV (encodeCsv headers rows)).data = rows := by
  have hcellv : ∀ r ∈ rows, ∀ h ∈ headers,
      jsTrim (objGetD r h []) = objGetD r h [] ∧
      '\n' ∉ objGetD r h [] ∧ '\r' ∉ objGetD r h [] := by
    intro r hr h hm
    obtain ⟨p, hp, he⟩ := objGetD_mem (by rw [hkeys r hr]; exact hm) ([] : Str)
    rw [he]
    exact hvals r hr p hp
  have hclean_hl : '\n' ∉ joinSep [','] headers ∧ '\r' ∉ joinSep [','] headers := by
    constructor
    · intro hc
      rcases mem_joinSep headers hc with hc | ⟨l, hlm, hc⟩
      · simp at hc
      · exact (hhead l hlm).2.2.2.2.1 hc
    · intro hc
      rcases mem_joinSep headers hc with hc | ⟨l, hlm, hc⟩
      · simp at hc
      · exact (hhead l hlm).2.2.2.2.2 hc
  have hclean_row : ∀ r ∈ rows,
      '\n' ∉ joinSep [','] (headers.map (fun h => escapeCsvValue (objGetD r h []))) ∧
      '\r' ∉ joinSep [','] (headers.map (fun h => escapeCsvValue (objGetD r h []))) := by
    intro r hr
    constructor
    · intro hc
      rcases mem_joinSep _ hc with hc | ⟨x, hxm, hc⟩
      · simp at hc
      · obtain ⟨h, hm, hxe⟩ := List.mem_map.mp hxm
        rw [← hxe] at hc
        rcases mem_escapeCsvValue hc with hc | hc
        · cases hc
        · exact (hcellv r hr h hm).2.1 hc
    · intro hc
      rcases mem_joinSep _ hc with hc | ⟨x, hxm, hc⟩
      · simp at hc
      · obtain ⟨h, hm, hxe⟩ := List.mem_map.mp hxm
        rw [← hxe] at hc
        rcases mem_escapeCsvValue hc with hc | hc
        · cases hc
        · exact (hcellv r hr h hm).2.2 hc
  -- the encoded text starts with the first character of the first header
  obtain ⟨h0, hs, hhd⟩ := List.exists_cons_of_ne_nil hh
  have hh0 := hhead h0 (by rw [hhd]; exact List.mem_cons_self h0 hs)
  obtain ⟨c0, t0, hc0⟩ := List.exists_cons_of_ne_nil hh0.1
  have hc0ns : ¬ jsSpace c0 := by
    refine not_space_head_of_trimmed (l := t0) ?_
    rw [← hc0]
    exact hh0.2.1
  have hfront : ∃ X, encodeCsv headers rows = c0 :: X := by
    obtain ⟨r1, hr1⟩ := joinSep_first [','] h0 hs
    obtain ⟨r2, hr2⟩ := joinSep_first ['\n'] (joinSep [','] headers)
      (rows.map (fun r => joinSep [','] (headers.map (fun h => escapeCsvValue (objGetD r h [])))))
    refine ⟨t0 ++ (r1 ++ r2), ?_⟩
    show joinSep ['\n'] (joinSep [','] headers :: _) = _
    rw [hr2, hhd, hr1, hc0]
    simp [List.append_assoc]
  -- the encoded text ends with a non-whitespace character
  rcases List.eq_nil_or_concat rows with habs | ⟨rinit, rlast, hre⟩
  · exact absurd habs hrows
  rw [List.concat_eq_append] at hre
  have hgl : rows.getLast? = some rlast := by
    rw [hre, List.getLast?_append]
    rfl
  have hlastrow : rlast ∈ rows := by
    rw [hre]
    exact List.mem_append_right rinit (List.mem_singleton.mpr rfl)
  have hendconds : ∀ x ∈ headers.map (fun h => escapeCsvValue (objGetD rlast h [])),
      x = [] ∨ ∃ q d, x = q ++ [d] ∧ ¬ jsSpace d := by
    intro x hx
    obtain ⟨h, hm, hxe⟩ := List.mem_map.mp hx
    rw [← hxe]
    exact escapeCsvValue_end (hcellv rlast hlastrow h hm).1
  rcases joinSep_comma_end (headers.map (fun h => escapeCsvValue (objGetD rlast h [])))
      (by simp [hh]) hendconds with ⟨_, hes⟩ | ⟨q2, d, hq2, hd⟩
  · -- the single-empty-value case is excluded by `hlast`
    exfalso
    have hlen1 : headers.length = 1 := by
      have := congrArg List.length hes
      simpa using this
    rcases headers with _ | ⟨h1, hs1⟩
    · exact hh rfl
    rcases hs1 with _ | _
    · rw [List.map_singleton] at hes
      have hesc : escapeCsvValue (objGetD rlast h1 []) = [] := by
        injection hes
      have hnil : objGetD rlast h1 [] = [] := escapeCsvValue_eq_nil hesc
      obtain ⟨p, hp, hpe⟩ := objGetD_mem
        (by rw [hkeys rlast hlastrow]; exact List.mem_cons_self h1 []) ([] : Str)
      exact hlast hlen1 rlast hgl p hp (by rw [← hpe, hnil])
    · simp at hlen1
  have hback : ∃ Q, encodeCsv headers rows = Q ++ [d] := by
    obtain ⟨q3, hq3⟩ := joinSep_ends ['\n']
      (joinSep [','] headers ::
        rinit.map (fun r => joinSep [','] (headers.map (fun h => escapeCsvValue (objGetD r h [])))))
      (joinSep [','] (headers.map (fun h => escapeCsvValue (objGetD rlast h []))))
    refine ⟨q3 ++ q2, ?_⟩
    show joinSep ['\n'] (joinSep [','] headers :: _) = _
    rw [hre, List.map_append, List.map_singleton]
    rw [show (joinSep [','] headers ::
        (rinit.map (fun r => joinSep [','] (headers.map (fun h => escapeCsvValue (objGetD r h [])))) ++
          [joinSep [','] (headers.map (fun h => escapeCsvValue (objGetD rlast h [])))])) =
      ((joinSep [','] headers ::
        rinit.map (fun r => joinSep [','] (headers.map (fun h => escapeCsvValue (objGetD r h []))))) ++
          [joinSep [','] (headers.map (fun h => escapeCsvValue (objGetD rlast h [])))]) from rfl]
    rw [hq3, hq2, List.append_assoc]
  have htrim : jsTrim (encodeCsv headers rows) = encodeCsv headers rows := by
    obtain ⟨X, hX⟩ := hfront
    obtain ⟨Q, hQ⟩ := hback
    unfold jsTrim
    rw [hX, trimStart_cons hc0ns, ← hX, hQ, trimEnd_concat hd, ← hQ]
  have hsplit : splitLines (encodeCsv headers rows) =
      joinSep [','] headers ::
        rows.map (fun r => joinSep [','] (headers.map (fun h => escapeCsvValue (objGetD r h [])))) := by
    show splitLines (joinSep ['\n'] _) = _
    refine splitLines_joinSep _ (by simp) ?_
    intro l hlm
    rw [List.mem_cons] at hlm
    rcases hlm with hlm | hlm
    · rw [hlm]
      exact hclean_hl
    · obtain ⟨r, hr, hle⟩ := List.mem_map.mp hlm
      rw [← hle]
      exact hclean_row r hr
  have hparse_hl : parseCSVLine (joinSep [','] headers) = headers :=
    parse_clean_joinSep headers hh
      (fun h hm => ⟨(hhead h hm).2.1, (hhead h hm).2.2.1, (hhead h hm).2.2.2.1⟩)
  have hrowparse : ∀ r ∈ rows,
      parseCSVLine (joinSep [','] (headers.map (fun h => escapeCsvValue (objGetD r h [])))) =
        headers.map (fun h => objGetD r h []) := by
    intro r hr
    rw [show headers.map (fun h => escapeCsvValue (objGetD r h [])) =
        (headers.map (fun h => objGetD r h [])).map escapeCsvValue from by
      rw [List.map_map]
      rfl]
    refine parse_escaped_joinSep _ (by simp [hh]) ?_
    intro v hv
    obtain ⟨h, hm, he⟩ := List.mem_map.mp hv
    rw [← he]
    exact (hcellv r hr h hm).1
  constructor
  · show (parseCSV (encodeCsv headers rows)).headers = headers
    simp only [parseCSV]
    rw [htrim, hsplit]
    simp only [List.headD_cons]
    exact hparse_hl
  · simp only [parseCSV]
    rw [htrim, hsplit]
    simp only [List.headD_cons, List.tail_cons, hparse_hl]
    refine filterMap_encode_rows rows ?_
    intro r hr
    simp only [hrowparse r hr]
    rw [if_pos (by simp)]
    congr 1
    rw [buildRow_eq hnd (by simp)]
    have hk := hkeys r hr
    rw [← hk]
    rw [show (r.map Prod.fst).map (fun h => objGetD r h []) = r.map Prod.snd from
      getD_keys_eq (by rw [hk]; exact hnd)]
    exact zip_keys_values r

/-- **C9**, witness at a concrete table whose values exercise the comma and
quote escaping. -/
theorem c9_amended_witness :
    (parseCSV (encodeCsv [str "a", str "b"]
        [[(str "a", str "x,1"), (str "b", str "y\"z")],
         [(str "a", str ""), (str "b", str "w")]])).headers =
      [str "a", str "b"] ∧
    (parseCSV (encodeCsv [str "a", str "b"]
        [[(str "a", str "x,1"), (str "b", str "y\"z")],
         [(str "a", str ""), (str "b", str "w")]])).data =
      [[(str "a", str "x,1"), (str "b", str "y\"z")],
       [(str "a", str ""), (str "b", str "w")]] :=
  c9_amended [str "a", str "b"]
    [[(str "a", str "x,1"), (str "b", str "y\"z")],
     [(str "a", str ""), (str "b", str "w")]]
    (by decide) (by decide) (by decide) (by decide) (by decide) (by decide) (by decide)

end CsvPoc
